import Mathlib

set_option maxHeartbeats 1000000
set_option maxRecDepth 4000

/- Verification of the Qiita API client (main.go): data model, tag codec,
   frontmatter parser/renderer, and the dry-run HTTP client.  Machine words,
   slices and maps are embedded as `Nat`/`List`/association lists; a nil Go
   slice is `none` and a non-nil slice is `some`.  Go runtime panics are an
   explicit error constructor. -/

/-- Build a `String` from its character list. -/
def strOfList (l : List Char) : String := ⟨l⟩

/-- Characters stripped by the YAML plain-scalar trimming model. -/
def isSp (c : Char) : Bool := c = ' ' || c = '\t'

/-- Strip leading space characters. -/
def ltrimSp (l : List Char) : List Char := l.dropWhile isSp

/-- Strip trailing space characters. -/
def rtrimSp (l : List Char) : List Char := List.rdropWhile isSp l

/-- Strip leading and trailing space characters. -/
def trimSp (l : List Char) : List Char := rtrimSp (ltrimSp l)

/-- Go `strings.SplitN(s, sep, 2)` for a single-character separator: split at
    the first occurrence of `c` only. -/
def splitN2 (c : Char) : List Char → List (List Char)
  | [] => [[]]
  | x :: xs =>
    if x = c then [[], xs]
    else
      match splitN2 c xs with
      | [] => [[x]]
      | y :: ys => (x :: y) :: ys

/-- Go `strings.Join` with a single-character separator, on character lists. -/
def goJoin (c : Char) (parts : List (List Char)) : List Char := [c].intercalate parts

/-- The Qiita `tagging` model (main.go `Tagging`): `Versions` is `none` for a
    nil Go slice and `some vs` for a non-nil slice. -/
structure Tagging where
  Name : String
  Versions : Option (List String)
deriving DecidableEq, Repr

/-- Alias used in signatures inside the `Tagging` namespace. -/
abbrev GoStr := String

/-- Go `len` of a possibly-nil string slice. -/
def goLen (v : Option (List String)) : Nat :=
  match v with
  | none => 0
  | some l => l.length

/-- `Tagging.String` (main.go lines 57-63): the name, followed by ":" and the
    comma-joined versions exactly when `len(t.Versions) > 0`. -/
def Tagging.String (t : Tagging) : GoStr :=
  let res := t.Name
  if 0 < goLen t.Versions then
    res ++ ":" ++ strOfList (goJoin ',' ((t.Versions.getD []).map (fun v => v.data)))
  else res

/-- `ParseTagging` (main.go lines 127-135): split on the first ":"; the part
    before is the name; when a ":" is present, the part after it is split on
    "," to form the versions. -/
def ParseTagging (src : String) : Tagging :=
  let seps := splitN2 ':' src.data
  { Name := strOfList (seps.headD [])
    Versions :=
      if seps.length = 2 then some (((seps.getD 1 []).splitOn ',').map strOfList)
      else none }

/-- Hex digit character for `\uXXXX` escapes (lower case, as Go emits). -/
def hexDigit (n : Nat) : Char :=
  if n < 10 then Char.ofNat (48 + n) else Char.ofNat (87 + n)

/-- Go `encoding/json` escaping of one character inside a string literal:
    quote, backslash, the HTML-special characters and control characters are
    escaped, everything else is emitted verbatim.  Modelled from the
    `encoding/json` encoder with its default HTML escaping. -/
def jsonEscapeChar (c : Char) : List Char :=
  if c = Char.ofNat 34 then [Char.ofNat 92, Char.ofNat 34]
  else if c = Char.ofNat 92 then [Char.ofNat 92, Char.ofNat 92]
  else if c = '\n' then [Char.ofNat 92, 'n']
  else if c = '\r' then [Char.ofNat 92, 'r']
  else if c = '\t' then [Char.ofNat 92, 't']
  else if c = '<' then [Char.ofNat 92, 'u', '0', '0', '3', 'c']
  else if c = '>' then [Char.ofNat 92, 'u', '0', '0', '3', 'e']
  else if c = '&' then [Char.ofNat 92, 'u', '0', '0', '2', '6']
  else if c.toNat < 32 then
    [Char.ofNat 92, 'u', '0', '0', hexDigit (c.toNat / 16), hexDigit (c.toNat % 16)]
  else [c]

/-- Go `json.Marshal` of a string value: a quoted, escaped string literal. -/
def jsonString (s : String) : String :=
  strOfList (Char.ofNat 34 :: (s.data.map jsonEscapeChar).flatten ++ [Char.ofNat 34])

/-- Go `json.Marshal` of a (non-nil) `[]string` value. -/
def jsonStringArray (vs : List String) : String :=
  "[" ++ strOfList (List.intercalate [','] (vs.map (fun v => (jsonString v).data))) ++ "]"

/-- `Tagging.MarshalJSON` (main.go lines 66-77): interpolates the name
    verbatim via Sprintf and emits the versions under the wire name "tags"
    exactly when the `Versions` slice is non-nil. -/
def Tagging.MarshalJSON (t : Tagging) : GoStr :=
  let s := "\x7b\"name\":\"" ++ t.Name ++ "\""
  let s :=
    match t.Versions with
    | none => s
    | some vs => s ++ ", \"tags\":" ++ jsonStringArray vs
  s ++ "\x7d"

/- ### Basic lemmas about the embedding -/

theorem strOfList_data (s : String) : strOfList s.data = s := rfl

theorem data_strOfList (l : List Char) : (strOfList l).data = l := rfl

theorem string_data_append (a b : String) : (a ++ b).data = a.data ++ b.data := rfl

theorem splitN2_of_not_mem {c : Char} : ∀ {l : List Char}, c ∉ l → splitN2 c l = [l]
  | [], _ => rfl
  | x :: xs, h => by
    have hx : ¬ x = c := fun e => h (e ▸ List.mem_cons_self x xs)
    have hxs : c ∉ xs := fun m => h (List.mem_cons_of_mem _ m)
    simp [splitN2, hx, splitN2_of_not_mem hxs]

theorem splitN2_sandwich {c : Char} : ∀ {m : List Char} (r : List Char), c ∉ m →
    splitN2 c (m ++ c :: r) = [m, r]
  | [], r, _ => by simp [splitN2]
  | x :: xs, r, h => by
    have hx : ¬ x = c := fun e => h (e ▸ List.mem_cons_self x xs)
    have hxs : c ∉ xs := fun m => h (List.mem_cons_of_mem _ m)
    simp [splitN2, hx, splitN2_sandwich r hxs]

theorem splitN2_shape (c : Char) : ∀ l : List Char,
    splitN2 c l = [l] ∨ ∃ a b, splitN2 c l = [a, b]
  | [] => Or.inl rfl
  | x :: xs => by
    by_cases hx : x = c
    · exact Or.inr ⟨[], xs, by simp [splitN2, hx]⟩
    · rcases splitN2_shape c xs with h | ⟨a, b, h⟩
      · exact Or.inl (by simp [splitN2, hx, h])
      · exact Or.inr ⟨x :: a, b, by simp [splitN2, hx, h]⟩

/-- Decompose a list at the first occurrence of an element. -/
theorem exists_first_split {c : Char} : ∀ {l : List Char}, c ∈ l →
    ∃ m r, c ∉ m ∧ l = m ++ c :: r
  | x :: xs, h => by
    by_cases hx : x = c
    · exact ⟨[], xs, by simp, by simp [hx]⟩
    · have hmem : c ∈ xs := by
        rcases List.mem_cons.1 h with h' | h'
        · exact absurd h'.symm hx
        · exact h'
      obtain ⟨m, r, hm, hs⟩ := exists_first_split hmem
      have hcx : ¬ c = x := fun e => hx e.symm
      exact ⟨x :: m, r, by simp [hm, hcx], by simp [hs]⟩

/-- Round trip of the tag codec at the token level: re-encoding a parsed
    token reproduces the token exactly. -/
theorem tagString_parseTagging (tok : String) :
    Tagging.String (ParseTagging tok) = tok := by
  by_cases h : ':' ∈ tok.data
  · obtain ⟨m, r, hm, hsplit⟩ := exists_first_split h
    have h1 : ParseTagging tok = ⟨strOfList m, some ((r.splitOn ',').map strOfList)⟩ := by
      simp [ParseTagging, hsplit, splitN2_sandwich _ hm]
    rw [h1]
    have hne := List.splitOnP_ne_nil (fun a => a == ',') r
    have hlen : 0 < goLen (some (((r.splitOn ',').map strOfList))) := by
      simp only [goLen, List.length_map]
      exact List.length_pos.2 (by simpa [List.splitOn] using hne)
    simp only [Tagging.String, hlen, if_pos, Option.getD_some]
    apply String.ext
    simp only [string_data_append, data_strOfList]
    have hmap : (((r.splitOn ',').map strOfList).map (fun v => v.data)) = r.splitOn ',' := by
      simp [List.map_map, Function.comp_def, data_strOfList]
    rw [hmap]
    have hj : goJoin ',' (r.splitOn ',') = r := by
      simp only [goJoin]
      exact List.intercalate_splitOn r ','
    rw [hj, hsplit]
    simp
  · simp [ParseTagging, splitN2_of_not_mem h, Tagging.String, goLen, strOfList_data]

/- ### Claim C6: Tagging.String output shape -/

/-- Claim C6 (counterexample): for the tag with name "go" and an empty but
    present (non-nil) versions slice, `Tagging.String` outputs just "go", not
    "go:" followed by the empty join as the claim requires. -/
theorem c6_counterexample :
    Tagging.String ⟨"go", some []⟩ = "go" ∧
      Tagging.String ⟨"go", some []⟩ ≠ "go" ++ ":" ++ strOfList (goJoin ',' []) := by
  constructor
  · rfl
  · decide

/-- Claim C6 (amended): `Tagging.String` outputs just the name exactly when
    `len(Versions)` is zero (nil or empty slice); when the versions slice is
    non-empty the output is the name, ":", and the comma-joined versions. -/
theorem c6_tagging_string_shape (t : Tagging) :
    (goLen t.Versions = 0 → Tagging.String t = t.Name) ∧
      (0 < goLen t.Versions →
        Tagging.String t =
          t.Name ++ ":" ++ strOfList (goJoin ',' ((t.Versions.getD []).map (fun v => v.data)))) := by
  constructor
  · intro h
    simp [Tagging.String, h]
  · intro h
    simp [Tagging.String, h]

/-- Claim C6 witness: the amended shape evaluated at concrete tags. -/
theorem c6_witness :
    Tagging.String ⟨"go", some ["1.x"]⟩ =
      "go" ++ ":" ++ strOfList (goJoin ',' (["1.x"].map (fun v => String.data v))) :=
  (c6_tagging_string_shape ⟨"go", some ["1.x"]⟩).2 (by decide)

/- ### Claim C2: Decode ∘ Encode round trip -/

/-- Claim C2 (counterexample): the absent-vs-empty distinction is not
    preserved: a tag with an empty non-nil versions slice encodes to just the
    name, which decodes back with absent (nil) versions. -/
theorem c2_counterexample :
    ParseTagging (Tagging.String ⟨"go", some []⟩) ≠ ⟨"go", some []⟩ := by
  decide

/-- Claim C2 (amended): `ParseTagging (Tagging.String t) = t` holds for tags
    whose name contains no ":" and whose versions are either absent or
    non-empty with no version containing ","; an empty non-nil versions slice
    instead collapses to absent. -/
theorem c2_decode_encode (t : Tagging) (hname : ':' ∉ t.Name.data)
    (hv : t.Versions = none ∨
      ∃ v vs, t.Versions = some (v :: vs) ∧ ∀ w ∈ v :: vs, ',' ∉ w.data) :
    ParseTagging (Tagging.String t) = t := by
  rcases hv with hv | ⟨v, vs, hv, hw⟩
  · obtain ⟨n, _⟩ := t
    cases hv
    simp [Tagging.String, goLen, ParseTagging, splitN2_of_not_mem hname, strOfList_data]
  · obtain ⟨n, _⟩ := t
    cases hv
    have hlen : 0 < goLen (some (v :: vs)) := by simp [goLen]
    have hdata :
        (n ++ ":" ++ strOfList (goJoin ',' ((v :: vs).map (fun v => v.data)))).data =
          n.data ++ ':' :: goJoin ',' ((v :: vs).map (fun v => v.data)) := by
      simp [string_data_append, data_strOfList]
    have hsplit : ([','].intercalate (v.data :: vs.map (fun v => v.data))).splitOn ',' =
        v.data :: vs.map (fun v => v.data) := by
      apply List.splitOn_intercalate
      · intro l hl
        rcases List.mem_cons.1 hl with rfl | hl
        · exact hw v (List.mem_cons_self _ _)
        · rcases List.mem_map.1 hl with ⟨w, hwmem, rfl⟩
          exact hw w (List.mem_cons_of_mem _ hwmem)
      · simp
    simp only [Tagging.String, hlen, if_pos, Option.getD_some]
    simp only [ParseTagging]
    rw [hdata, splitN2_sandwich _ hname]
    simp [goJoin, hsplit, List.getD, List.map_map, Function.comp_def, strOfList_data]

/-- Claim C2 witness: the amended round trip at a concrete tag. -/
theorem c2_witness :
    ParseTagging (Tagging.String ⟨"foo", some ["1.0", "2.0"]⟩) = ⟨"foo", some ["1.0", "2.0"]⟩ :=
  c2_decode_encode ⟨"foo", some ["1.0", "2.0"]⟩ (by decide)
    (Or.inr ⟨"1.0", ["2.0"], rfl, by decide⟩)

/- ### Claim C8: ParseTagging never produces empty non-nil versions -/

/-- Claim C8 (counterexample): the token "a:b:" ends in ":" but parses to the
    single version "b:", not to the single empty-string version claimed. -/
theorem c8_counterexample :
    "a:b:".data.getLast? = some ':' ∧
      (ParseTagging "a:b:").Versions = some ["b:"] ∧
      (some ["b:"] : Option (List String)) ≠ some [""] := by
  refine ⟨by decide, by decide, by decide⟩

/-- Claim C8 (amended): `ParseTagging` never produces an empty non-nil
    versions slice: the result is absent or has length at least one; a token
    with no ":" yields absent versions, and a token whose only ":" is its
    final character yields the single empty-string version. -/
theorem c8_versions_invariant :
    (∀ s : String, (ParseTagging s).Versions = none ∨
        ∃ v vs, (ParseTagging s).Versions = some (v :: vs)) ∧
      (∀ s : String, ':' ∉ s.data → (ParseTagging s).Versions = none) ∧
      (∀ n : String, ':' ∉ n.data → ParseTagging (n ++ ":") = ⟨n, some [""]⟩) := by
  refine ⟨fun s => ?_, fun s h => ?_, fun n h => ?_⟩
  · rcases splitN2_shape ':' s.data with h | ⟨a, b, h⟩
    · exact Or.inl (by simp [ParseTagging, h])
    · refine Or.inr ?_
      have hne := List.splitOnP_ne_nil (fun x => x == ',') b
      rcases hb : b.splitOn ',' with _ | ⟨v, vs⟩
      · exact absurd (by simpa [List.splitOn] using hb) hne
      · exact ⟨strOfList v, vs.map strOfList, by simp [ParseTagging, h, hb]⟩
  · simp [ParseTagging, splitN2_of_not_mem h]
  · have hdata : (n ++ ":").data = n.data ++ ':' :: [] := by
      simp [string_data_append]
    simp [ParseTagging, hdata, splitN2_sandwich _ h, List.splitOn, List.splitOnP,
      List.splitOnP.go, strOfList_data]
    rfl

/-- Claim C8 witness: the invariant evaluated at concrete tokens. -/
theorem c8_witness :
    (ParseTagging "bar").Versions = none ∧ ParseTagging ("foo" ++ ":") = ⟨"foo", some [""]⟩ :=
  ⟨c8_versions_invariant.2.1 "bar" (by decide), c8_versions_invariant.2.2 "foo" (by decide)⟩

/- ### Claim C5: the wire JSON of a tag -/

/-- Claim C5: `Tagging.MarshalJSON` emits the version list under the wire
    field name "tags" exactly when the versions slice is non-nil, and on the
    two concrete tags produces exactly the documented wire JSON. -/
theorem c5_marshal_wire :
    (∀ t : Tagging,
        (t.Versions = none →
          Tagging.MarshalJSON t = "\x7b\"name\":\"" ++ t.Name ++ "\"\x7d") ∧
        (∀ vs, t.Versions = some vs →
          Tagging.MarshalJSON t =
            "\x7b\"name\":\"" ++ t.Name ++ "\", \"tags\":" ++ jsonStringArray vs ++ "\x7d")) ∧
      Tagging.MarshalJSON ⟨"go", none⟩ = "\x7b\"name\":\"go\"\x7d" ∧
      Tagging.MarshalJSON ⟨"go", some ["1.x"]⟩ = "\x7b\"name\":\"go\", \"tags\":[\"1.x\"]\x7d" := by
  refine ⟨fun t => ⟨fun h => ?_, fun vs h => ?_⟩, by decide, by decide⟩
  · simp only [Tagging.MarshalJSON, h]
    apply String.ext
    simp [string_data_append]
  · simp only [Tagging.MarshalJSON, h]
    apply String.ext
    simp [string_data_append]

/-- Claim C5 witness: the general shape applied at a concrete tag. -/
theorem c5_witness :
    Tagging.MarshalJSON ⟨"lean", some ["4.14"]⟩ =
      "\x7b\"name\":\"" ++ "lean" ++ "\", \"tags\":" ++ jsonStringArray ["4.14"] ++ "\x7d" :=
  ((c5_marshal_wire.1 ⟨"lean", some ["4.14"]⟩).2 ["4.14"]) rfl

/- ### Frontmatter parser and renderer -/

/-- Scalar values of the YAML metadata mapping relevant to main.go. -/
inductive YamlVal where
  | str (s : String)
  | bool (b : Bool)
  | null
  | num
deriving DecidableEq, Repr

/-- YAML 1.1 literals the yaml.v2 resolver turns into `true`. -/
def yamlTrueSet : List String :=
  ["y", "Y", "yes", "Yes", "YES", "true", "True", "TRUE", "on", "On", "ON"]

/-- YAML 1.1 literals the yaml.v2 resolver turns into `false`. -/
def yamlFalseSet : List String :=
  ["n", "N", "no", "No", "NO", "false", "False", "FALSE", "off", "Off", "OFF"]

/-- Literals the yaml.v2 resolver turns into null. -/
def yamlNullSet : List String := ["", "~", "null", "Null", "NULL"]

/-- Characters that can occur in numeric scalars. -/
def numChar (c : Char) : Bool :=
  c.isDigit ||
    c ∈ ['.', 'e', 'E', 'x', 'X', 'o', 'O', '_', '+', '-', 'a', 'b', 'c', 'd', 'f',
      'A', 'B', 'C', 'D', 'F']

/-- Recognizer for scalars the yaml.v2 resolver reads as numbers. -/
def isNumLike (l : List Char) : Bool :=
  match l with
  | [] => false
  | c :: _ => (c.isDigit || c = '-' || c = '+' || c = '.') && l.all numChar

/-- Modelled from the yaml.v2 library (an external dependency of main.go):
    resolution of a plain scalar to null, boolean, number or string. -/
def resolveScalar (l : List Char) : YamlVal :=
  let s := strOfList l
  if s ∈ yamlNullSet then .null
  else if s ∈ yamlTrueSet then .bool true
  else if s ∈ yamlFalseSet then .bool false
  else if isNumLike l then .num
  else .str s

/-- Modelled from the yaml.v2 library: one `key: value` line of a block
    mapping of plain scalars; the value is trimmed and resolved, a bare
    `key:` is null, anything else fails the whole unmarshal. -/
def lineParse (line : List Char) : Option (String × YamlVal) :=
  match splitN2 ':' line with
  | [key, rest] =>
    if rest = [] then some (strOfList key, YamlVal.null)
    else if rest.head? = some ' ' then some (strOfList key, resolveScalar (trimSp rest))
    else none
  | _ => none

/-- Parse every line, failing if any line fails. -/
def linesParse : List (List Char) → Option (List (String × YamlVal))
  | [] => some []
  | l :: ls =>
    match lineParse l, linesParse ls with
    | some kv, some kvs => some (kv :: kvs)
    | _, _ => none

/-- Modelled from the yaml.v2 library: parse a block-mapping metadata section
    into an association list.  As in main.go line 110 the unmarshal error is
    ignored, so a failed parse leaves the map empty (nil map). -/
def miniYamlParse (m : String) : List (String × YamlVal) :=
  let lines := (m.data.splitOn '\n').filter (fun l => !l.isEmpty)
  match linesParse lines with
  | some kvs => kvs
  | none => []

/-- Go runtime panics that `ParseMarkdown` can raise. -/
inductive GoPanic where
  | indexOutOfRange
  | typeAssertString
  | typeAssertBool
deriving DecidableEq, Repr

/-- The Qiita `item` model (main.go `Item`); timestamps are kept as their
    wire strings; `Tags` is `none` for a nil Go slice. -/
structure Item where
  ID : String := ""
  Title : String := ""
  Body : String := ""
  RenderedBody : String := ""
  Private : Bool := false
  Tags : Option (List Tagging) := none
  CreatedAt : String := ""
  UpdatedAt : String := ""
deriving DecidableEq, Repr

/-- Split a list at the first occurrence of the separator sublist. -/
def firstSplitSub (sep : List Char) : List Char → Option (List Char × List Char)
  | [] => if sep.isEmpty then some ([], []) else none
  | c :: cs =>
    if sep.isPrefixOf (c :: cs) then some ([], (c :: cs).drop sep.length)
    else
      match firstSplitSub sep cs with
      | some (pre, post) => some (c :: pre, post)
      | none => none

/-- Go `strings.SplitN` with part count `n` (main.go uses n = 3). -/
def goSplitN (n : Nat) (sep : List Char) (s : List Char) : List (List Char) :=
  match n with
  | 0 => []
  | 1 => [s]
  | Nat.succ m =>
    match firstSplitSub sep s with
    | none => [s]
    | some (pre, post) => pre :: goSplitN m sep post

/-- The document delimiter `"---\n"` used by `ParseMarkdown`. -/
def delim : List Char := ['-', '-', '-', '\n']

/-- The assertion `meta["title"].(string)` (main.go line 113): the value must
    be present and a string, anything else is a type-assertion panic. -/
def parseTitle (meta : List (String × YamlVal)) : Except GoPanic String :=
  match meta.lookup "title" with
  | some (YamlVal.str t) => .ok t
  | _ => .error GoPanic.typeAssertString

/-- The optional `private` field (main.go lines 114-116): absent defaults to
    true; a present non-boolean (even an explicit null) panics. -/
def parsePrivate (meta : List (String × YamlVal)) : Except GoPanic Bool :=
  match meta.lookup "private" with
  | none => .ok true
  | some (YamlVal.bool b) => .ok b
  | some _ => .error GoPanic.typeAssertBool

/-- The optional `tags` field (main.go lines 117-121): absent or null gives
    nil tags; a string is space-split and fed to `ParseTagging`; any other
    present value panics on the string assertion. -/
def parseTags (meta : List (String × YamlVal)) : Except GoPanic (Option (List Tagging)) :=
  match meta.lookup "tags" with
  | none => .ok none
  | some YamlVal.null => .ok none
  | some (YamlVal.str s) =>
    .ok (some ((s.data.splitOn ' ').map (fun tk => ParseTagging (strOfList tk))))
  | some _ => .error GoPanic.typeAssertString

/-- `ParseMarkdown` (main.go lines 104-124): split the source on the first
    two delimiters, parse the middle as YAML, extract title/private/tags in
    source order.  Go's unchecked index accesses and type assertions are
    explicit panic values; `Private` defaults to true. -/
def ParseMarkdown (src : String) : Except GoPanic Item :=
  let sections := goSplitN 3 delim src.data
  match sections[1]? with
  | none => .error GoPanic.indexOutOfRange
  | some sec1 =>
    match sections[2]? with
    | none => .error GoPanic.indexOutOfRange
    | some sec2 =>
      let meta := miniYamlParse (strOfList sec1)
      match parseTitle meta with
      | .error e => .error e
      | .ok title =>
        match parsePrivate meta with
        | .error e => .error e
        | .ok priv =>
          match parseTags meta with
          | .error e => .error e
          | .ok tags =>
            .ok { Title := title, Body := strOfList sec2, Private := priv, Tags := tags }

/-- Modelled from html/template's text-context escaper: the five
    HTML-special characters are replaced by entities. -/
def htmlEscapeChar (c : Char) : List Char :=
  if c = '&' then "&amp;".data
  else if c = '<' then "&lt;".data
  else if c = '>' then "&gt;".data
  else if c = Char.ofNat 34 then "&#34;".data
  else if c = Char.ofNat 39 then "&#39;".data
  else [c]

/-- Escape a whole string as html/template does in text context. -/
def htmlEscape (s : String) : String := strOfList ((s.data.map htmlEscapeChar).flatten)

/-- `Item.ToMarkdown` (main.go lines 80-101): the fixed html/template with
    title, space-separated encoded tags, private flag, and the body.  The
    template is a constant that parses, and executing it on an `Item` cannot
    fail, so the always-nil error result is omitted. -/
def Item.ToMarkdown (item : Item) : GoStr :=
  "---\ntitle: " ++ htmlEscape item.Title ++ "\ntags:" ++
    strOfList (((item.Tags.getD []).map
      (fun t => ' ' :: (htmlEscape (Tagging.String t)).data)).flatten) ++
    "\nprivate: " ++ (if item.Private then "true" else "false") ++ "\n---\n" ++
    htmlEscape item.Body

/- ### Claim C4: missing or mistyped title -/

/-- Claim C4: on a document whose frontmatter lacks `title` (or whose
    `title` is not a string) `ParseMarkdown` does not return an error
    result: it crashes on the unchecked type assertion
    `meta["title"].(string)` (main.go line 113). -/
theorem c4_missing_title_panics :
    ParseMarkdown "---\nprivate: false\n---\nbody" = .error GoPanic.typeAssertString ∧
      ParseMarkdown "---\ntitle: true\n---\nbody" = .error GoPanic.typeAssertString := by
  constructor <;> rfl

/- ### Trimming lemmas -/

theorem trimSp_cons_space (l : List Char) : trimSp (' ' :: l) = trimSp l := by
  simp [trimSp, ltrimSp, List.dropWhile_cons, isSp]

theorem head_ltrimSp_not_sp : ∀ {l : List Char} {c : Char},
    (ltrimSp l).head? = some c → isSp c = false
  | [], c, h => by simp [ltrimSp] at h
  | a :: l, c, h => by
    by_cases ha : isSp a
    · have h' : (ltrimSp l).head? = some c := by
        simpa [ltrimSp, List.dropWhile_cons, ha] using h
      exact head_ltrimSp_not_sp h'
    · have hac : a = c := by simpa [ltrimSp, List.dropWhile_cons, ha] using h
      subst hac
      simpa using ha

theorem ltrimSp_trimSp (l : List Char) : ltrimSp (trimSp l) = trimSp l := by
  rcases h : trimSp l with _ | ⟨c, t⟩
  · rfl
  · have hpre : trimSp l <+: ltrimSp l := List.rdropWhile_prefix isSp (ltrimSp l)
    rw [h] at hpre
    obtain ⟨r, hr⟩ := hpre
    have hc : (ltrimSp l).head? = some c := by rw [← hr]; rfl
    have hcs := head_ltrimSp_not_sp hc
    simp [ltrimSp, List.dropWhile_cons, hcs]

theorem trimSp_idem (l : List Char) : trimSp (trimSp l) = trimSp l := by
  show rtrimSp (ltrimSp (trimSp l)) = trimSp l
  rw [ltrimSp_trimSp]
  show rtrimSp (rtrimSp (ltrimSp l)) = trimSp l
  exact List.rdropWhile_idempotent isSp (ltrimSp l)

theorem mem_trimSp {x : Char} {l : List Char} (h : x ∈ trimSp l) : x ∈ l := by
  have h1 : trimSp l <+: ltrimSp l := List.rdropWhile_prefix isSp (ltrimSp l)
  have h2 : ltrimSp l <:+ l := List.dropWhile_suffix isSp
  exact h2.subset (h1.subset h)

/- ### HTML-escape lemmas -/

/-- Characters that html/template's text escaper leaves unchanged. -/
def htmlSafeChar (c : Char) : Bool :=
  !(c = '&' || c = '<' || c = '>' || c = Char.ofNat 34 || c = Char.ofNat 39)

theorem htmlEscapeChar_safe {c : Char} (h : htmlSafeChar c = true) : htmlEscapeChar c = [c] := by
  simp only [htmlSafeChar, Bool.not_eq_true', Bool.or_eq_false_iff, decide_eq_false_iff_not] at h
  obtain ⟨⟨⟨⟨h1, h2⟩, h3⟩, h4⟩, h5⟩ := h
  simp [htmlEscapeChar, h1, h2, h3, h4, h5]

theorem htmlEscape_eq_self {s : String} (h : ∀ c ∈ s.data, htmlSafeChar c = true) :
    htmlEscape s = s := by
  apply String.ext
  simp only [htmlEscape, data_strOfList]
  suffices h' : ∀ l : List Char, (∀ c ∈ l, htmlSafeChar c = true) →
      (l.map htmlEscapeChar).flatten = l by exact h' s.data h
  intro l hl
  induction l with
  | nil => rfl
  | cons a t ih =>
    simp [htmlEscapeChar_safe (hl a (by simp)), ih (fun c hc => hl c (by simp [hc]))]

/- ### Suffix decomposition lemmas -/

theorem prefix_cases {l r₁ r₂ : List Char} (h1 : r₁ <+: l) (h2 : r₂ <+: l) :
    r₁ <+: r₂ ∨ r₂ <+: r₁ := by
  rcases le_total r₁.length r₂.length with h | h
  · exact Or.inl (List.prefix_of_prefix_length_le h1 h2 h)
  · exact Or.inr (List.prefix_of_prefix_length_le h2 h1 h)

theorem suffix_append_cases {s p t : List Char} (h : s <:+ p ++ t) :
    s <:+ t ∨ t <:+ s := by
  have h' : s.reverse <+: (p ++ t).reverse := List.reverse_prefix.2 h
  rw [List.reverse_append] at h'
  have ht : t.reverse <+: t.reverse ++ p.reverse := List.prefix_append _ _
  rcases prefix_cases h' ht with h'' | h''
  · exact Or.inl (List.reverse_prefix.1 h'')
  · exact Or.inr (List.reverse_prefix.1 h'')

/-- The suffixes of the three-dash list are its four tails. -/
theorem suffix_dash3_cases {u : List Char} (h : u <:+ ['-', '-', '-']) :
    u = [] ∨ u = ['-'] ∨ u = ['-', '-'] ∨ u = ['-', '-', '-'] := by
  obtain ⟨p, hp⟩ := h
  match u with
  | [] => exact Or.inl rfl
  | [a] =>
    have := congrArg (fun l => l.getLast? ) hp
    simp at this
    subst this
    exact Or.inr (Or.inl rfl)
  | [a, b] =>
    have hlen := congrArg List.length hp
    simp at hlen
    match p, hlen with
    | [x], _ =>
      simp at hp
      obtain ⟨-, rfl, rfl⟩ := hp
      exact Or.inr (Or.inr (Or.inl rfl))
  | [a, b, c] =>
    have hlen := congrArg List.length hp
    simp at hlen
    subst hlen
    simp at hp
    obtain ⟨rfl, rfl, rfl⟩ := hp
    exact Or.inr (Or.inr (Or.inr rfl))
  | a :: b :: c :: d :: u' =>
    have hlen := congrArg List.length hp
    simp at hlen
    omega

/- ### Membership through splitOn -/

theorem mem_of_mem_splitOnP {p : Char → Bool} {x : Char} :
    ∀ {l tk : List Char}, tk ∈ l.splitOnP p → x ∈ tk → x ∈ l
  | [], tk, htk, hx => by
    rw [List.splitOnP_nil] at htk
    simp at htk
    subst htk
    cases hx
  | a :: l, tk, htk, hx => by
    rw [List.splitOnP_cons] at htk
    by_cases ha : p a
    · rw [if_pos ha] at htk
      rcases List.mem_cons.1 htk with rfl | htk
      · cases hx
      · exact List.mem_cons_of_mem _ (mem_of_mem_splitOnP htk hx)
    · rw [if_neg ha] at htk
      rcases hsp : l.splitOnP p with _ | ⟨h0, rest⟩
      · exact absurd hsp (List.splitOnP_ne_nil _ _)
      · rw [hsp, List.modifyHead_cons] at htk
        rcases List.mem_cons.1 htk with rfl | htk
        · rcases List.mem_cons.1 hx with rfl | hx
          · exact List.mem_cons_self _ _
          · have hm : h0 ∈ l.splitOnP p := by rw [hsp]; exact List.mem_cons_self _ _
            exact List.mem_cons_of_mem _ (mem_of_mem_splitOnP hm hx)
        · have hm : tk ∈ l.splitOnP p := by rw [hsp]; exact List.mem_cons_of_mem _ htk
          exact List.mem_cons_of_mem _ (mem_of_mem_splitOnP hm hx)

theorem mem_of_mem_splitOn {c x : Char} {l tk : List Char}
    (htk : tk ∈ l.splitOn c) (hx : x ∈ tk) : x ∈ l :=
  mem_of_mem_splitOnP (by simpa [List.splitOn] using htk) hx

/- ### First-split lemmas for the document delimiter -/

theorem fss_cons (sep : List Char) (c : Char) (cs : List Char) :
    firstSplitSub sep (c :: cs) =
      if sep.isPrefixOf (c :: cs) then some ([], (c :: cs).drop sep.length)
      else
        match firstSplitSub sep cs with
        | some (pre, post) => some (c :: pre, post)
        | none => none := rfl

theorem fss_delim_self (t : List Char) : firstSplitSub delim (delim ++ t) = some ([], t) := by
  have hp : delim.isPrefixOf (delim ++ t) = true :=
    List.isPrefixOf_iff_prefix.2 (List.prefix_append _ _)
  rw [show delim ++ t = '-' :: ('-' :: '-' :: '\n' :: t) from rfl, fss_cons]
  rw [show ('-' :: '-' :: '-' :: '\n' :: t : List Char) = delim ++ t from rfl, hp]
  simp [delim]

theorem delim_not_prefix_of_line {x : Char} {xs : List Char} (rest : List Char)
    (hnl : '\n' ∉ x :: xs) (hdash : ¬ (['-', '-', '-'] <:+ x :: xs)) :
    delim.isPrefixOf (x :: (xs ++ '\n' :: rest)) = false := by
  match xs with
  | [] => simp [delim, List.isPrefixOf]
  | [d] => simp [delim, List.isPrefixOf]
  | [d, e] =>
    by_cases hx : x = '-'
    · by_cases hd : d = '-'
      · have he : ¬ e = '-' := by
          intro he
          exact hdash (by rw [hx, hd, he])
        have he' : ¬ '-' = e := fun h => he h.symm
        simp [delim, List.isPrefixOf, beq_iff_eq, he']
      · have hd' : ¬ '-' = d := fun h => hd h.symm
        simp [delim, List.isPrefixOf, beq_iff_eq, hd']
    · have hx' : ¬ '-' = x := fun h => hx h.symm
      simp [delim, List.isPrefixOf, beq_iff_eq, hx']
  | d :: e :: f :: xs' =>
    have hf : ¬ '\n' = f := by
      intro h
      exact hnl (by simp [← h])
    simp [delim, List.isPrefixOf, beq_iff_eq, hf]

theorem fss_line_peel : ∀ (xs : List Char), '\n' ∉ xs → ¬ (['-', '-', '-'] <:+ xs) →
    ∀ rest, firstSplitSub delim (xs ++ '\n' :: rest) =
      (firstSplitSub delim rest).map (fun pr => (xs ++ '\n' :: pr.1, pr.2))
  | [], _, _, rest => by
    rw [List.nil_append, fss_cons]
    have hnp : delim.isPrefixOf ('\n' :: rest) = false := by simp [delim, List.isPrefixOf]
    rw [hnp]
    rcases h : firstSplitSub delim rest with _ | ⟨pre, post⟩ <;> simp [h]
  | x :: xs, hnl, hdash, rest => by
    have hnp := delim_not_prefix_of_line rest hnl hdash
    have hnl' : '\n' ∉ xs := fun m => hnl (List.mem_cons_of_mem _ m)
    have hdash' : ¬ (['-', '-', '-'] <:+ xs) := fun h => hdash (h.trans (List.suffix_cons x xs))
    rw [List.cons_append, fss_cons, hnp]
    rw [fss_line_peel xs hnl' hdash' rest]
    rcases h : firstSplitSub delim rest with _ | ⟨pre, post⟩ <;> simp [h]

/-- Join metadata lines, each terminated by a newline. -/
def joinLines (lines : List (List Char)) : List Char :=
  (lines.map (fun l => l ++ ['\n'])).flatten

theorem joinLines_cons (l : List Char) (ls : List (List Char)) :
    joinLines (l :: ls) = l ++ '\n' :: joinLines ls := by
  simp [joinLines]

theorem fss_joinLines : ∀ (lines : List (List Char)) (body : List Char),
    (∀ l ∈ lines, '\n' ∉ l) → (∀ l ∈ lines, ¬ (['-', '-', '-'] <:+ l)) →
    firstSplitSub delim (joinLines lines ++ delim ++ body) = some (joinLines lines, body)
  | [], body, _, _ => by simpa [joinLines] using fss_delim_self body
  | l :: ls, body, hnl, hdash => by
    rw [joinLines_cons]
    have heq : (l ++ '\n' :: joinLines ls) ++ delim ++ body =
        l ++ '\n' :: (joinLines ls ++ delim ++ body) := by simp
    rw [heq, fss_line_peel l (hnl l (by simp)) (hdash l (by simp)),
      fss_joinLines ls body (fun x hx => hnl x (by simp [hx]))
        (fun x hx => hdash x (by simp [hx]))]
    rfl

theorem goSplitN3_eq (sep s : List Char) :
    goSplitN 3 sep s =
      match firstSplitSub sep s with
      | none => [s]
      | some (pre, post) => pre ::
        (match firstSplitSub sep post with
         | none => [post]
         | some (pre2, post2) => pre2 :: [post2]) := rfl

theorem goSplitN3_doc (lines : List (List Char)) (body : List Char)
    (hnl : ∀ l ∈ lines, '\n' ∉ l) (hdash : ∀ l ∈ lines, ¬ (['-', '-', '-'] <:+ l)) :
    goSplitN 3 delim (delim ++ (joinLines lines ++ delim ++ body)) =
      [[], joinLines lines, body] := by
  have h1 := fss_delim_self (joinLines lines ++ delim ++ body)
  have h2 := fss_joinLines lines body hnl hdash
  rw [goSplitN3_eq]
  rw [show delim ++ (joinLines lines ++ delim ++ body) = delim ++ (joinLines lines ++ delim ++ body) from rfl]
  simp only [h1]
  simp only [h2]

/- ### Line-level YAML lemmas -/

theorem lineParse_keyval {k v : List Char} (hk : ':' ∉ k) :
    lineParse (k ++ ':' :: ' ' :: v) = some (strOfList k, resolveScalar (trimSp v)) := by
  simp only [lineParse, splitN2_sandwich _ hk]
  simp [trimSp_cons_space]

theorem lineParse_keynull {k : List Char} (hk : ':' ∉ k) :
    lineParse (k ++ [':']) = some (strOfList k, YamlVal.null) := by
  have he : k ++ [':'] = k ++ ':' :: ([] : List Char) := rfl
  rw [he]
  simp only [lineParse, splitN2_sandwich _ hk]
  simp

theorem lookup_head (k : String) (v : YamlVal) (rest : List (String × YamlVal)) :
    List.lookup k ((k, v) :: rest) = some v := by
  simp [List.lookup]

theorem lookup_skip {k k' : String} (h : (k == k') = false) (v : YamlVal)
    (rest : List (String × YamlVal)) :
    List.lookup k ((k', v) :: rest) = List.lookup k rest := by
  simp [List.lookup, h]

theorem splitOn_nl_joinLines : ∀ {lines : List (List Char)}, (∀ l ∈ lines, '\n' ∉ l) →
    (joinLines lines).splitOn '\n' = lines ++ [[]]
  | [], _ => by simp [joinLines, List.splitOn, List.splitOnP_nil]
  | l :: ls, h => by
    rw [joinLines_cons]
    have hl : ∀ x ∈ l, ¬ ((x == '\n') = true) := by
      intro x hx
      simp only [beq_iff_eq]
      exact fun e => (h l (by simp)) (e ▸ hx)
    simp only [List.splitOn]
    rw [List.splitOnP_first (fun x => x == '\n') l hl '\n' (by simp) (joinLines ls)]
    have hls : ∀ x ∈ ls, '\n' ∉ x := fun x hx => h x (List.mem_cons_of_mem _ hx)
    have ih := splitOn_nl_joinLines hls
    simp only [List.splitOn] at ih
    rw [ih]
    simp

/-- Parsing the joined metadata lines recovers the parsed lines, provided
    every line is nonempty and newline-free. -/
theorem miniYaml_joinLines {lines : List (List Char)} {kvs : List (String × YamlVal)}
    (hnl : ∀ l ∈ lines, '\n' ∉ l) (hne : ∀ l ∈ lines, l ≠ [])
    (hparsed : linesParse lines = some kvs) :
    miniYamlParse (strOfList (joinLines lines)) = kvs := by
  simp only [miniYamlParse, data_strOfList]
  rw [splitOn_nl_joinLines hnl]
  have hfilter : (lines ++ [[]]).filter (fun l => !l.isEmpty) = lines := by
    rw [List.filter_append]
    have h1 : (lines.filter (fun l => !l.isEmpty)) = lines :=
      List.filter_eq_self.2 (fun a ha => by
        simpa [List.isEmpty_iff] using hne a ha)
    have h2 : ([[]] : List (List Char)).filter (fun l => !l.isEmpty) = [] := by decide
    rw [h1, h2, List.append_nil]
  rw [hfilter, hparsed]

/- ### Well-formed document values -/

/-- Recognize resolved string values. -/
def isStrVal : YamlVal → Bool
  | YamlVal.str _ => true
  | _ => false

/-- A `": "` occurrence inside a value would open a nested YAML mapping,
    outside the modelled plain-scalar sublanguage. -/
def hasColonSpace : List Char → Bool
  | [] => false
  | [_] => false
  | a :: b :: rest => (a = ':' && b = ' ') || hasColonSpace (b :: rest)

/-- Characters allowed in frontmatter scalar values for the round-trip
    theorems: the html/template-escaped characters, newline, carriage
    return, tab and the YAML comment character are excluded. -/
def safeValChar (c : Char) : Bool :=
  htmlSafeChar c && !(c = '\n' || c = '\r' || c = '\t' || c = '#')

/-- YAML indicator characters that may not lead a plain scalar. -/
def plainLeadBad (c : Char) : Bool :=
  c ∈ ['-', '?', ':', ',', '[', ']', Char.ofNat 123, Char.ofNat 125, '#', '&', '*', '!',
    '|', '>', '%', '@', Char.ofNat 96, Char.ofNat 34, Char.ofNat 39]

/-- A frontmatter scalar value fit for the round-trip contract: every
    character is safe, the trimmed value resolves to a YAML string, it opens
    no nested mapping, does not end in ":", its head is no YAML indicator,
    and neither it nor its trimmed form ends in three dashes (which would
    form a document delimiter when rendered). -/
def valOk (v : String) : Bool :=
  v.data.all safeValChar &&
  isStrVal (resolveScalar (trimSp v.data)) &&
  !hasColonSpace v.data &&
  !(v.data.getLast? == some ':') &&
  (match (trimSp v.data).head? with
   | some c => !plainLeadBad c
   | none => false) &&
  !(decide (['-', '-', '-'] <:+ v.data)) &&
  !(decide (['-', '-', '-'] <:+ trimSp v.data))

theorem resolveScalar_str {l : List Char} (h : isStrVal (resolveScalar l) = true) :
    resolveScalar l = YamlVal.str (strOfList l) := by
  unfold resolveScalar at h ⊢
  by_cases h1 : strOfList l ∈ yamlNullSet
  · simp [h1, isStrVal] at h
  · by_cases h2 : strOfList l ∈ yamlTrueSet
    · simp [h1, h2, isStrVal] at h
    · by_cases h3 : strOfList l ∈ yamlFalseSet
      · simp [h1, h2, h3, isStrVal] at h
      · by_cases h4 : isNumLike l = true
        · simp [h1, h2, h3, h4, isStrVal] at h
        · have h4' : isNumLike l = false := by simpa using h4
          simp [h1, h2, h3, h4']

theorem valOk_facts {v : String} (h : valOk v = true) :
    (∀ c ∈ v.data, safeValChar c = true) ∧
      resolveScalar (trimSp v.data) = YamlVal.str (strOfList (trimSp v.data)) ∧
      ¬ (['-', '-', '-'] <:+ v.data) ∧ ¬ (['-', '-', '-'] <:+ trimSp v.data) := by
  simp only [valOk, Bool.and_eq_true, List.all_eq_true, Bool.not_eq_true',
    decide_eq_false_iff_not] at h
  obtain ⟨⟨⟨⟨⟨⟨h1, h2⟩, h3⟩, h4⟩, h5⟩, h6⟩, h7⟩ := h
  exact ⟨h1, resolveScalar_str h2, h6, h7⟩

theorem safeVal_html {v : String} (h : ∀ c ∈ v.data, safeValChar c = true) :
    ∀ c ∈ v.data, htmlSafeChar c = true := by
  intro c hc
  have := h c hc
  simp only [safeValChar, Bool.and_eq_true] at this
  exact this.1

theorem no_nl_value_line {pre : List Char} {v : List Char} (hpre : '\n' ∉ pre)
    (hsafe : ∀ c ∈ v, safeValChar c = true) : '\n' ∉ pre ++ v := by
  intro h
  rcases List.mem_append.1 h with h | h
  · exact hpre h
  · exact absurd (hsafe _ h) (by decide)

theorem value_line_no_dash_suffix (pre : List Char) (v : String)
    (hvdash : ¬ (['-', '-', '-'] <:+ v.data))
    (hres : resolveScalar (trimSp v.data) = YamlVal.str (strOfList (trimSp v.data))) :
    ¬ (['-', '-', '-'] <:+ pre ++ v.data) := by
  intro h
  rcases suffix_append_cases h with h' | h'
  · exact hvdash h'
  · rcases suffix_dash3_cases h' with h0 | h1 | h2 | h3
    · rw [h0] at hres; exact absurd hres (by decide)
    · rw [h1] at hres; exact absurd hres (by decide)
    · rw [h2] at hres; exact absurd hres (by decide)
    · exact hvdash (h3 ▸ List.suffix_refl _)

/- ### Canonical well-formed documents -/

/-- Metadata lines of a canonical well-formed source document. -/
def docLines (T : String) (tagsOpt : Option String) (privOpt : Option Bool) :
    List (List Char) :=
  ["title: ".data ++ T.data] ++
    (match tagsOpt with
     | some s => [("tags: ".data ++ s.data)]
     | none => []) ++
    (match privOpt with
     | some b => [("private: ".data ++ (if b then "true".data else "false".data))]
     | none => [])

/-- A canonical well-formed source document (the domain of claims C1 and
    C7): leading delimiter, YAML mapping with a string `title`, optional
    string `tags`, optional boolean `private`, second delimiter, body. -/
def mkDoc (T : String) (tagsOpt : Option String) (privOpt : Option Bool) (B : String) :
    String :=
  strOfList (delim ++ (joinLines (docLines T tagsOpt privOpt) ++ delim ++ B.data))

/-- The item produced by parsing a canonical document. -/
def itemOf (T : String) (tagsOpt : Option String) (privOpt : Option Bool) (B : String) :
    Item :=
  { Title := strOfList (trimSp T.data)
    Body := B
    Private := privOpt.getD true
    Tags := tagsOpt.map (fun s =>
      ((trimSp s.data).splitOn ' ').map (fun tk => ParseTagging (strOfList tk))) }

/- ### Parsing a canonical document -/

theorem titleLine_facts_of {T : String} (hsafe : ∀ c ∈ T.data, safeValChar c = true)
    (hres : resolveScalar (trimSp T.data) = YamlVal.str (strOfList (trimSp T.data)))
    (hdraw : ¬ (['-', '-', '-'] <:+ T.data)) :
    '\n' ∉ ("title: ".data ++ T.data) ∧
      ¬ (['-', '-', '-'] <:+ ("title: ".data ++ T.data)) ∧
      lineParse ("title: ".data ++ T.data) =
        some ("title", YamlVal.str (strOfList (trimSp T.data))) := by
  refine ⟨no_nl_value_line (by decide) hsafe, value_line_no_dash_suffix _ _ hdraw hres, ?_⟩
  have he : "title: ".data ++ T.data = "title".data ++ ':' :: ' ' :: T.data := rfl
  rw [he, lineParse_keyval (by decide), hres]
  rfl

theorem titleLine_facts {T : String} (h : valOk T = true) :
    '\n' ∉ ("title: ".data ++ T.data) ∧
      ¬ (['-', '-', '-'] <:+ ("title: ".data ++ T.data)) ∧
      lineParse ("title: ".data ++ T.data) =
        some ("title", YamlVal.str (strOfList (trimSp T.data))) := by
  obtain ⟨hsafe, hres, hdraw, hdtrim⟩ := valOk_facts h
  exact titleLine_facts_of hsafe hres hdraw

theorem tagsLine_facts_of {s : String} (hsafe : ∀ c ∈ s.data, safeValChar c = true)
    (hres : resolveScalar (trimSp s.data) = YamlVal.str (strOfList (trimSp s.data)))
    (hdraw : ¬ (['-', '-', '-'] <:+ s.data)) :
    '\n' ∉ ("tags: ".data ++ s.data) ∧
      ¬ (['-', '-', '-'] <:+ ("tags: ".data ++ s.data)) ∧
      lineParse ("tags: ".data ++ s.data) =
        some ("tags", YamlVal.str (strOfList (trimSp s.data))) := by
  refine ⟨no_nl_value_line (by decide) hsafe, value_line_no_dash_suffix _ _ hdraw hres, ?_⟩
  have he : "tags: ".data ++ s.data = "tags".data ++ ':' :: ' ' :: s.data := rfl
  rw [he, lineParse_keyval (by decide), hres]
  rfl

theorem tagsLine_facts {s : String} (h : valOk s = true) :
    '\n' ∉ ("tags: ".data ++ s.data) ∧
      ¬ (['-', '-', '-'] <:+ ("tags: ".data ++ s.data)) ∧
      lineParse ("tags: ".data ++ s.data) =
        some ("tags", YamlVal.str (strOfList (trimSp s.data))) := by
  obtain ⟨hsafe, hres, hdraw, hdtrim⟩ := valOk_facts h
  exact tagsLine_facts_of hsafe hres hdraw

theorem privLine_facts (b : Bool) :
    '\n' ∉ ("private: ".data ++ (if b then "true".data else "false".data)) ∧
      ¬ (['-', '-', '-'] <:+ ("private: ".data ++ (if b then "true".data else "false".data))) ∧
      lineParse ("private: ".data ++ (if b then "true".data else "false".data)) =
        some ("private", YamlVal.bool b) := by
  cases b
  · exact ⟨by decide, by decide, by decide⟩
  · exact ⟨by decide, by decide, by decide⟩

theorem getElem1_triple (a b c : List Char) : ([a, b, c] : List (List Char))[1]? = some b := rfl

theorem getElem2_triple (a b c : List Char) : ([a, b, c] : List (List Char))[2]? = some c := rfl

/-- Parsing a canonical well-formed document succeeds and produces exactly
    the trimmed title, the verbatim body, the private flag (default true)
    and the space-split, `ParseTagging`-decoded tags. -/
theorem parseMarkdown_mkDoc (T : String) (tagsOpt : Option String) (privOpt : Option Bool)
    (B : String) (hT : valOk T = true) (hts : ∀ s, tagsOpt = some s → valOk s = true) :
    ParseMarkdown (mkDoc T tagsOpt privOpt B) = .ok (itemOf T tagsOpt privOpt B) := by
  obtain ⟨hTnl, hTdash, hTline⟩ := titleLine_facts hT
  have e1 : (("private" : String) == "title") = false := by decide
  have e2 : (("tags" : String) == "title") = false := by decide
  have e3 : (("private" : String) == "tags") = false := by decide
  rcases tagsOpt with _ | s <;> rcases privOpt with _ | b
  · have hlines : docLines T none none = [("title: ".data ++ T.data)] := rfl
    have hnl : ∀ l ∈ docLines T none none, '\n' ∉ l := by
      rw [hlines]; intro l hl; simp only [List.mem_singleton] at hl; subst hl; exact hTnl
    have hdash : ∀ l ∈ docLines T none none, ¬ (['-', '-', '-'] <:+ l) := by
      rw [hlines]; intro l hl; simp only [List.mem_singleton] at hl; subst hl; exact hTdash
    have hne : ∀ l ∈ docLines T none none, l ≠ [] := by
      rw [hlines]; intro l hl; simp only [List.mem_singleton] at hl; subst hl; simp
    have hparsed : linesParse (docLines T none none) =
        some [("title", YamlVal.str (strOfList (trimSp T.data)))] := by
      rw [hlines]
      simp only [linesParse]
      rw [hTline]
    have hmeta := miniYaml_joinLines hnl hne hparsed
    simp only [ParseMarkdown, mkDoc, data_strOfList]
    rw [goSplitN3_doc _ _ hnl hdash]
    simp only [getElem1_triple, getElem2_triple]
    rw [hmeta]
    simp [parseTitle, parsePrivate, parseTags, List.lookup, e1, e2, e3, itemOf,
      strOfList_data, data_strOfList]
  · have hlines : docLines T none (some b) =
        [("title: ".data ++ T.data),
          ("private: ".data ++ (if b then "true".data else "false".data))] := rfl
    obtain ⟨hPnl, hPdash, hPline⟩ := privLine_facts b
    have hnl : ∀ l ∈ docLines T none (some b), '\n' ∉ l := by
      rw [hlines]; intro l hl
      rcases List.mem_cons.1 hl with rfl | hl
      · exact hTnl
      · simp only [List.mem_singleton] at hl; subst hl; exact hPnl
    have hdash : ∀ l ∈ docLines T none (some b), ¬ (['-', '-', '-'] <:+ l) := by
      rw [hlines]; intro l hl
      rcases List.mem_cons.1 hl with rfl | hl
      · exact hTdash
      · simp only [List.mem_singleton] at hl; subst hl; exact hPdash
    have hne : ∀ l ∈ docLines T none (some b), l ≠ [] := by
      rw [hlines]; intro l hl
      rcases List.mem_cons.1 hl with rfl | hl
      · simp
      · simp only [List.mem_singleton] at hl; subst hl; cases b <;> simp
    have hparsed : linesParse (docLines T none (some b)) =
        some [("title", YamlVal.str (strOfList (trimSp T.data))),
          ("private", YamlVal.bool b)] := by
      rw [hlines]
      simp only [linesParse]
      rw [hTline, hPline]
    have hmeta := miniYaml_joinLines hnl hne hparsed
    simp only [ParseMarkdown, mkDoc, data_strOfList]
    rw [goSplitN3_doc _ _ hnl hdash]
    simp only [getElem1_triple, getElem2_triple]
    rw [hmeta]
    simp [parseTitle, parsePrivate, parseTags, List.lookup, e1, e2, e3, itemOf,
      strOfList_data, data_strOfList]
  · obtain ⟨hSnl, hSdash, hSline⟩ := tagsLine_facts (hts s rfl)
    have hlines : docLines T (some s) none =
        [("title: ".data ++ T.data), ("tags: ".data ++ s.data)] := rfl
    have hnl : ∀ l ∈ docLines T (some s) none, '\n' ∉ l := by
      rw [hlines]; intro l hl
      rcases List.mem_cons.1 hl with rfl | hl
      · exact hTnl
      · simp only [List.mem_singleton] at hl; subst hl; exact hSnl
    have hdash : ∀ l ∈ docLines T (some s) none, ¬ (['-', '-', '-'] <:+ l) := by
      rw [hlines]; intro l hl
      rcases List.mem_cons.1 hl with rfl | hl
      · exact hTdash
      · simp only [List.mem_singleton] at hl; subst hl; exact hSdash
    have hne : ∀ l ∈ docLines T (some s) none, l ≠ [] := by
      rw [hlines]; intro l hl
      rcases List.mem_cons.1 hl with rfl | hl
      · simp
      · simp only [List.mem_singleton] at hl; subst hl; simp
    have hparsed : linesParse (docLines T (some s) none) =
        some [("title", YamlVal.str (strOfList (trimSp T.data))),
          ("tags", YamlVal.str (strOfList (trimSp s.data)))] := by
      rw [hlines]
      simp only [linesParse]
      rw [hTline, hSline]
    have hmeta := miniYaml_joinLines hnl hne hparsed
    simp only [ParseMarkdown, mkDoc, data_strOfList]
    rw [goSplitN3_doc _ _ hnl hdash]
    simp only [getElem1_triple, getElem2_triple]
    rw [hmeta]
    simp [parseTitle, parsePrivate, parseTags, List.lookup, e1, e2, e3, itemOf,
      strOfList_data, data_strOfList]
  · obtain ⟨hSnl, hSdash, hSline⟩ := tagsLine_facts (hts s rfl)
    obtain ⟨hPnl, hPdash, hPline⟩ := privLine_facts b
    have hlines : docLines T (some s) (some b) =
        [("title: ".data ++ T.data), ("tags: ".data ++ s.data),
          ("private: ".data ++ (if b then "true".data else "false".data))] := rfl
    have hnl : ∀ l ∈ docLines T (some s) (some b), '\n' ∉ l := by
      rw [hlines]; intro l hl
      rcases List.mem_cons.1 hl with rfl | hl
      · exact hTnl
      · rcases List.mem_cons.1 hl with rfl | hl
        · exact hSnl
        · simp only [List.mem_singleton] at hl; subst hl; exact hPnl
    have hdash : ∀ l ∈ docLines T (some s) (some b), ¬ (['-', '-', '-'] <:+ l) := by
      rw [hlines]; intro l hl
      rcases List.mem_cons.1 hl with rfl | hl
      · exact hTdash
      · rcases List.mem_cons.1 hl with rfl | hl
        · exact hSdash
        · simp only [List.mem_singleton] at hl; subst hl; exact hPdash
    have hne : ∀ l ∈ docLines T (some s) (some b), l ≠ [] := by
      rw [hlines]; intro l hl
      rcases List.mem_cons.1 hl with rfl | hl
      · simp
      · rcases List.mem_cons.1 hl with rfl | hl
        · simp
        · simp only [List.mem_singleton] at hl; subst hl; cases b <;> simp
    have hparsed : linesParse (docLines T (some s) (some b)) =
        some [("title", YamlVal.str (strOfList (trimSp T.data))),
          ("tags", YamlVal.str (strOfList (trimSp s.data))),
          ("private", YamlVal.bool b)] := by
      rw [hlines]
      simp only [linesParse]
      rw [hTline, hSline, hPline]
    have hmeta := miniYaml_joinLines hnl hne hparsed
    simp only [ParseMarkdown, mkDoc, data_strOfList]
    rw [goSplitN3_doc _ _ hnl hdash]
    simp only [getElem1_triple, getElem2_triple]
    rw [hmeta]
    simp [parseTitle, parsePrivate, parseTags, List.lookup, e1, e2, e3, itemOf,
      strOfList_data, data_strOfList]

/- ### The rendered document -/

/-- The metadata lines produced by `Item.ToMarkdown`. -/
def renderLines (i : Item) : List (List Char) :=
  [("title: ".data ++ (htmlEscape i.Title).data),
    ("tags".data ++ ':' ::
      ((i.Tags.getD []).map (fun t => ' ' :: (htmlEscape (Tagging.String t)).data)).flatten),
    ("private: ".data ++ (if i.Private then "true".data else "false".data))]

theorem toMarkdown_eq (i : Item) :
    Item.ToMarkdown i =
      strOfList (delim ++ (joinLines (renderLines i) ++ delim ++ (htmlEscape i.Body).data)) := by
  apply String.ext
  cases hp : i.Private <;>
    simp [Item.ToMarkdown, renderLines, joinLines, string_data_append, data_strOfList, delim, hp]

theorem intercalate_cons_cons (x : Char) (a b : List Char) (l : List (List Char)) :
    [x].intercalate (a :: b :: l) = a ++ x :: [x].intercalate (b :: l) := by
  simp [List.intercalate, List.intersperse]

theorem flatten_map_space : ∀ (tok : List Char) (toks : List (List Char)),
    ((tok :: toks).map (fun tk => ' ' :: tk)).flatten = ' ' :: [' '].intercalate (tok :: toks)
  | tok, [] => by simp [List.intercalate]
  | tok, t :: ts => by
    have ih := flatten_map_space t ts
    rw [intercalate_cons_cons]
    simp only [List.map_cons, List.flatten_cons] at ih ⊢
    rw [ih]
    simp


/-- The metadata lines of the rendered document, by component. -/
def renderDocLines (tv : List Char) (tagsVal : Option (List Char)) (b : Bool) :
    List (List Char) :=
  [("title: ".data ++ tv),
    (match tagsVal with
     | none => "tags".data ++ [':']
     | some v => "tags: ".data ++ v),
    ("private: ".data ++ (if b then "true".data else "false".data))]

/-- Re-parsing the rendered form of a parsed canonical document yields the
    same item again. -/
theorem parseMarkdown_render (T : String) (tagsOpt : Option String) (privOpt : Option Bool)
    (B : String) (hT : valOk T = true) (hts : ∀ s, tagsOpt = some s → valOk s = true)
    (hB : ∀ c ∈ B.data, htmlSafeChar c = true) :
    ParseMarkdown (Item.ToMarkdown (itemOf T tagsOpt privOpt B)) =
      .ok (itemOf T tagsOpt privOpt B) := by
  obtain ⟨hsafeT, hresT, hdrawT, hdtrimT⟩ := valOk_facts hT
  have e1 : (("private" : String) == "title") = false := by decide
  have e2 : (("tags" : String) == "title") = false := by decide
  have e3 : (("private" : String) == "tags") = false := by decide
  have hsafeT' : ∀ c ∈ (strOfList (trimSp T.data)).data, safeValChar c = true := by
    intro c hc
    exact hsafeT c (mem_trimSp (by simpa [data_strOfList] using hc))
  have hresT' : resolveScalar (trimSp (strOfList (trimSp T.data)).data) =
      YamlVal.str (strOfList (trimSp (strOfList (trimSp T.data)).data)) := by
    simp only [data_strOfList, trimSp_idem]
    exact hresT
  have hdrawT' : ¬ (['-', '-', '-'] <:+ (strOfList (trimSp T.data)).data) := by
    simpa [data_strOfList] using hdtrimT
  obtain ⟨hTnl, hTdash, hTline⟩ := titleLine_facts_of hsafeT' hresT' hdrawT'
  have hTline' : lineParse ("title: ".data ++ (strOfList (trimSp T.data)).data) =
      some ("title", YamlVal.str (strOfList (trimSp T.data))) := by
    rw [hTline]
    simp [data_strOfList, trimSp_idem]
  have hescT : htmlEscape (strOfList (trimSp T.data)) = strOfList (trimSp T.data) :=
    htmlEscape_eq_self (safeVal_html hsafeT')
  obtain ⟨hPnl, hPdash, hPline⟩ := privLine_facts (privOpt.getD true)
  have hBody : htmlEscape (itemOf T tagsOpt privOpt B).Body = B := htmlEscape_eq_self hB
  rcases tagsOpt with _ | s
  · -- no tags: the rendered tags line is the bare "tags:"
    have hdef : renderDocLines (trimSp T.data) none (privOpt.getD true) =
        [("title: ".data ++ (strOfList (trimSp T.data)).data),
          ("tags".data ++ [':']),
          ("private: ".data ++ (if privOpt.getD true then "true".data else "false".data))] := rfl
    have hTgnl : '\n' ∉ ("tags".data ++ [':']) := by decide
    have hTgdash : ¬ (['-', '-', '-'] <:+ ("tags".data ++ [':'])) := by decide
    have hTgline : lineParse ("tags".data ++ [':']) = some ("tags", YamlVal.null) := by
      rw [lineParse_keynull (by decide)]
      rfl
    have hrl : renderLines (itemOf T none privOpt B) =
        renderDocLines (trimSp T.data) none (privOpt.getD true) := by
      rw [hdef]
      simp [renderLines, itemOf, hescT]
    have hnl : ∀ l ∈ renderDocLines (trimSp T.data) none (privOpt.getD true), '\n' ∉ l := by
      rw [hdef]
      intro l hl
      rcases List.mem_cons.1 hl with rfl | hl
      · exact hTnl
      · rcases List.mem_cons.1 hl with rfl | hl
        · exact hTgnl
        · simp only [List.mem_singleton] at hl; subst hl; exact hPnl
    have hdash : ∀ l ∈ renderDocLines (trimSp T.data) none (privOpt.getD true),
        ¬ (['-', '-', '-'] <:+ l) := by
      rw [hdef]
      intro l hl
      rcases List.mem_cons.1 hl with rfl | hl
      · exact hTdash
      · rcases List.mem_cons.1 hl with rfl | hl
        · exact hTgdash
        · simp only [List.mem_singleton] at hl; subst hl; exact hPdash
    have hne : ∀ l ∈ renderDocLines (trimSp T.data) none (privOpt.getD true), l ≠ [] := by
      rw [hdef]
      intro l hl
      rcases List.mem_cons.1 hl with rfl | hl
      · simp
      · rcases List.mem_cons.1 hl with rfl | hl
        · simp
        · simp only [List.mem_singleton] at hl; subst hl
          rcases privOpt.getD true <;> simp
    have hparsed : linesParse (renderDocLines (trimSp T.data) none (privOpt.getD true)) =
        some [("title", YamlVal.str (strOfList (trimSp T.data))),
          ("tags", YamlVal.null), ("private", YamlVal.bool (privOpt.getD true))] := by
      rw [hdef]
      simp only [linesParse]
      rw [hTline', hTgline, hPline]
    have hmeta := miniYaml_joinLines hnl hne hparsed
    rw [toMarkdown_eq, hrl, hBody]
    simp only [ParseMarkdown, data_strOfList]
    rw [goSplitN3_doc _ B.data hnl hdash]
    simp only [getElem1_triple, getElem2_triple]
    rw [hmeta]
    simp [parseTitle, parsePrivate, parseTags, List.lookup, e1, e2, e3, itemOf,
      strOfList_data, data_strOfList]
  · -- tags present
    have hS := hts s rfl
    obtain ⟨hsafeS, hresS, hdrawS, hdtrimS⟩ := valOk_facts hS
    have htokne : (trimSp s.data).splitOn ' ' ≠ [] := by
      simpa [List.splitOn] using List.splitOnP_ne_nil (fun a => a == ' ') (trimSp s.data)
    rcases htoks : (trimSp s.data).splitOn ' ' with _ | ⟨tok, toks⟩
    · exact absurd htoks htokne
    have hTags : (itemOf T (some s) privOpt B).Tags =
        some ((tok :: toks).map (fun tk => ParseTagging (strOfList tk))) := by
      simp [itemOf, htoks]
    have htksafe : ∀ tk ∈ tok :: toks, ∀ c ∈ tk, safeValChar c = true := by
      intro tk htk c hc
      have hmem : tk ∈ (trimSp s.data).splitOn ' ' := by rw [htoks]; exact htk
      exact hsafeS c (mem_trimSp (mem_of_mem_splitOn hmem hc))
    have hsegment : (((itemOf T (some s) privOpt B).Tags.getD []).map
        (fun t => ' ' :: (htmlEscape (Tagging.String t)).data)).flatten =
        ' ' :: trimSp s.data := by
      rw [hTags, Option.getD_some, List.map_map]
      have hmap : (tok :: toks).map
          ((fun t => ' ' :: (htmlEscape (Tagging.String t)).data) ∘
            (fun tk => ParseTagging (strOfList tk))) =
          (tok :: toks).map (fun tk => ' ' :: tk) := by
        apply List.map_congr_left
        intro tk htk
        simp only [Function.comp_def]
        rw [tagString_parseTagging, htmlEscape_eq_self]
        · rfl
        · intro c hc
          have := htksafe tk htk c (by simpa [data_strOfList] using hc)
          simp only [safeValChar, Bool.and_eq_true] at this
          exact this.1
      rw [hmap, flatten_map_space, ← htoks, List.intercalate_splitOn (trimSp s.data) ' ']
    have hsafeS' : ∀ c ∈ (strOfList (trimSp s.data)).data, safeValChar c = true := by
      intro c hc
      exact hsafeS c (mem_trimSp (by simpa [data_strOfList] using hc))
    have hresS' : resolveScalar (trimSp (strOfList (trimSp s.data)).data) =
        YamlVal.str (strOfList (trimSp (strOfList (trimSp s.data)).data)) := by
      simp only [data_strOfList, trimSp_idem]
      exact hresS
    have hdrawS' : ¬ (['-', '-', '-'] <:+ (strOfList (trimSp s.data)).data) := by
      simpa [data_strOfList] using hdtrimS
    obtain ⟨hSnl, hSdash, hSline⟩ := tagsLine_facts_of hsafeS' hresS' hdrawS'
    have hSline' : lineParse ("tags: ".data ++ (strOfList (trimSp s.data)).data) =
        some ("tags", YamlVal.str (strOfList (trimSp s.data))) := by
      rw [hSline]
      simp [data_strOfList, trimSp_idem]
    have hdef : renderDocLines (trimSp T.data) (some (trimSp s.data)) (privOpt.getD true) =
        [("title: ".data ++ (strOfList (trimSp T.data)).data),
          ("tags: ".data ++ (strOfList (trimSp s.data)).data),
          ("private: ".data ++ (if privOpt.getD true then "true".data else "false".data))] := rfl
    have hrl : renderLines (itemOf T (some s) privOpt B) =
        renderDocLines (trimSp T.data) (some (trimSp s.data)) (privOpt.getD true) := by
      rw [hdef]
      simp only [renderLines, hsegment]
      simp [itemOf, hescT, data_strOfList]
    have hnl : ∀ l ∈ renderDocLines (trimSp T.data) (some (trimSp s.data)) (privOpt.getD true),
        '\n' ∉ l := by
      rw [hdef]
      intro l hl
      rcases List.mem_cons.1 hl with rfl | hl
      · exact hTnl
      · rcases List.mem_cons.1 hl with rfl | hl
        · exact hSnl
        · simp only [List.mem_singleton] at hl; subst hl; exact hPnl
    have hdash : ∀ l ∈ renderDocLines (trimSp T.data) (some (trimSp s.data)) (privOpt.getD true),
        ¬ (['-', '-', '-'] <:+ l) := by
      rw [hdef]
      intro l hl
      rcases List.mem_cons.1 hl with rfl | hl
      · exact hTdash
      · rcases List.mem_cons.1 hl with rfl | hl
        · exact hSdash
        · simp only [List.mem_singleton] at hl; subst hl; exact hPdash
    have hne : ∀ l ∈ renderDocLines (trimSp T.data) (some (trimSp s.data)) (privOpt.getD true),
        l ≠ [] := by
      rw [hdef]
      intro l hl
      rcases List.mem_cons.1 hl with rfl | hl
      · simp
      · rcases List.mem_cons.1 hl with rfl | hl
        · simp
        · simp only [List.mem_singleton] at hl; subst hl
          rcases privOpt.getD true <;> simp
    have hparsed : linesParse
        (renderDocLines (trimSp T.data) (some (trimSp s.data)) (privOpt.getD true)) =
        some [("title", YamlVal.str (strOfList (trimSp T.data))),
          ("tags", YamlVal.str (strOfList (trimSp s.data))),
          ("private", YamlVal.bool (privOpt.getD true))] := by
      rw [hdef]
      simp only [linesParse]
      rw [hTline', hSline', hPline]
    have hmeta := miniYaml_joinLines hnl hne hparsed
    rw [toMarkdown_eq, hrl, hBody]
    simp only [ParseMarkdown, data_strOfList]
    rw [goSplitN3_doc _ B.data hnl hdash]
    simp only [getElem1_triple, getElem2_triple]
    rw [hmeta]
    simp [parseTitle, parsePrivate, parseTags, List.lookup, e1, e2, e3, itemOf,
      strOfList_data, data_strOfList, htoks]

/- ### Claim C1: the parse/render round trip -/

/-- Claim C1 (counterexample): html/template escapes the body, so a
    well-formed document whose body contains "&" does not round-trip:
    re-parsing the rendered document yields body "b&amp;c", not "b&c". -/
theorem c1_counterexample :
    ParseMarkdown "---\ntitle: a\n---\nb&c" =
        .ok { Title := "a", Body := "b&c", Private := true, Tags := none } ∧
      ParseMarkdown
          (Item.ToMarkdown { Title := "a", Body := "b&c", Private := true, Tags := none }) =
        .ok { Title := "a", Body := "b&amp;c", Private := true, Tags := none } ∧
      ("b&amp;c" : String) ≠ "b&c" := by
  refine ⟨by rfl, by rfl, by decide⟩

/-- Claim C1 (amended): for every canonical well-formed source document
    (string title, optional string tags, optional boolean private, body)
    whose title and tags values are safe plain scalars and whose title, tags
    and body contain no html/template-escaped characters,
    `Parse(Render(Parse(x)))` equals `Parse(x)` — the parsed items agree on
    every field, in particular on title, body, private and tags. -/
theorem c1_round_trip (T : String) (tagsOpt : Option String) (privOpt : Option Bool)
    (B : String) (hT : valOk T = true) (hts : ∀ s, tagsOpt = some s → valOk s = true)
    (hB : ∀ c ∈ B.data, htmlSafeChar c = true) :
    ∃ i : Item, ParseMarkdown (mkDoc T tagsOpt privOpt B) = .ok i ∧
      ParseMarkdown (Item.ToMarkdown i) = .ok i :=
  ⟨itemOf T tagsOpt privOpt B, parseMarkdown_mkDoc T tagsOpt privOpt B hT hts,
    parseMarkdown_render T tagsOpt privOpt B hT hts hB⟩

/-- Claim C1 witness: the round trip through the end-to-end example document
    of the specification. -/
theorem c1_witness :
    ∃ i : Item,
      ParseMarkdown (mkDoc "Hello" (some "go:1.x sample") (some false) "Body text here.\n") =
          .ok i ∧
        ParseMarkdown (Item.ToMarkdown i) = .ok i :=
  c1_round_trip "Hello" (some "go:1.x sample") (some false) "Body text here.\n"
    (by decide) (fun s hs => by cases hs; decide) (by decide)

/- ### Claim C7: parsing the documented tags example -/

/-- Claim C7: parsing a well-formed document whose frontmatter has the field
    `tags: foo:1.0,2.0 bar` yields exactly the two tags
    `{foo, ["1.0","2.0"]}` and `{bar, absent}`, in order. -/
theorem c7_tags_example (T : String) (privOpt : Option Bool) (B : String)
    (hT : valOk T = true) :
    ∃ i : Item, ParseMarkdown (mkDoc T (some "foo:1.0,2.0 bar") privOpt B) = .ok i ∧
      i.Tags = some [⟨"foo", some ["1.0", "2.0"]⟩, ⟨"bar", none⟩] := by
  refine ⟨itemOf T (some "foo:1.0,2.0 bar") privOpt B,
    parseMarkdown_mkDoc T _ privOpt B hT (fun s hs => by cases hs; decide), ?_⟩
  simp only [itemOf]
  decide

/-- Claim C7 witness: the tags example at a concrete document. -/
theorem c7_witness :
    ∃ i : Item, ParseMarkdown (mkDoc "Hello" (some "foo:1.0,2.0 bar") (some false) "B") =
        .ok i ∧ i.Tags = some [⟨"foo", some ["1.0", "2.0"]⟩, ⟨"bar", none⟩] :=
  c7_tags_example "Hello" (some false) "B" (by decide)

/- ### HTTP client model -/

/-- An HTTP request as main.go builds it. -/
structure HttpRequest where
  method : String
  host : String
  path : String
  headers : List (String × String)
  body : String
deriving DecidableEq, Repr

/-- `http.Header.Set`: replace any existing value of the key. -/
def setHeader (r : HttpRequest) (k v : String) : HttpRequest :=
  { r with headers := (r.headers.filter (fun kv => kv.1 != k)) ++ [(k, v)] }

/-- Modelled from `http.NewRequest` for the https URLs of main.go: split the
    URL into host and path. -/
def newRequest (method url body : String) : HttpRequest :=
  let rest := url.data.drop "https://".data.length
  { method := method
    host := strOfList (rest.takeWhile (fun c => c ≠ '/'))
    path := strOfList (rest.dropWhile (fun c => c ≠ '/'))
    headers := []
    body := body }

/-- Modelled from `httputil.DumpRequest`: request line, Host line, the
    headers, a blank line, then the body. -/
def dumpRequest (r : HttpRequest) : String :=
  r.method ++ " " ++ r.path ++ " HTTP/1.1\r\n" ++ "Host: " ++ r.host ++ "\r\n" ++
    strOfList ((r.headers.map (fun kv => (kv.1 ++ ": " ++ kv.2 ++ "\r\n").data)).flatten) ++
    "\r\n" ++ r.body

/-- The observable outcome of one `DoRequest` call: the final request (with
    the Authorization header set), whether the network was used, what was
    printed to stdout, and the returned bytes or error. -/
structure DoReqOutcome where
  finalRequest : HttpRequest
  networkCalled : Bool
  stdout : List String
  result : Except String String
deriving Repr

/-- `DoRequest` (main.go lines 178-200): always sets the bearer-token
    Authorization header from the environment first; under dry-run it dumps
    the request to stdout and returns empty bytes with a nil error without
    touching the network; otherwise it performs the call (the transport is
    the `net` oracle) and wraps transport errors as `errors.Wrap` does. -/
def DoRequest (dryRun : Bool) (token : String)
    (net : HttpRequest → Except String String) (req : HttpRequest) : DoReqOutcome :=
  let req2 := setHeader req "Authorization" ("Bearer " ++ token)
  if dryRun then
    { finalRequest := req2, networkCalled := false, stdout := [dumpRequest req2],
      result := .ok "" }
  else
    match net req2 with
    | .ok body =>
      { finalRequest := req2, networkCalled := true, stdout := [], result := .ok body }
    | .error e =>
      { finalRequest := req2, networkCalled := true, stdout := [],
        result := .error ("failed to do request: " ++ e) }

/-- Compact a JSON document: drop whitespace outside string literals.
    Modelled from the compaction `encoding/json` applies to the output of a
    custom `MarshalJSON` before embedding it. -/
def jsonCompactAux : Bool → Bool → List Char → List Char
  | _, _, [] => []
  | inStr, esc, c :: cs =>
    if inStr then
      if esc then c :: jsonCompactAux true false cs
      else if c = Char.ofNat 92 then c :: jsonCompactAux true true cs
      else if c = Char.ofNat 34 then c :: jsonCompactAux false false cs
      else c :: jsonCompactAux true false cs
    else if c = ' ' || c = '\n' || c = '\t' || c = '\r' then jsonCompactAux false false cs
    else if c = Char.ofNat 34 then c :: jsonCompactAux true false cs
    else c :: jsonCompactAux false false cs

/-- Compacted JSON text. -/
def jsonCompact (s : String) : String := strOfList (jsonCompactAux false false s.data)

/-- The JSON payload `PostNewItem` marshals (main.go lines 138-147):
    `json.Marshal` of the four-entry map sorts the keys alphabetically and
    embeds the compacted output of `Tagging.MarshalJSON` for each tag; a nil
    tags slice marshals as null.  (For tag names that would make the custom
    marshaller emit invalid JSON the real `json.Marshal` errors instead;
    the theorems below restrict to clean names.) -/
def marshalPostdata (item : Item) : String :=
  "\x7b\"body\":" ++ jsonString item.Body ++ ",\"private\":" ++
    (if item.Private then "true" else "false") ++ ",\"tags\":" ++
    (match item.Tags with
     | none => "null"
     | some ts =>
       "[" ++ strOfList (List.intercalate [',']
         (ts.map (fun t => (jsonCompact (Tagging.MarshalJSON t)).data))) ++ "]") ++
    ",\"title\":" ++ jsonString item.Title ++ "\x7d"

/-- Modelled from `encoding/json` unmarshalling for the only input reachable
    in the verified (dry-run) paths: the empty body is a syntax error,
    "unexpected end of JSON input".  Real network responses are produced by
    the `net` oracle and are outside the verified paths, so they map to an
    unmodelled error. -/
def jsonUnmarshalItem (s : String) : Except String Item :=
  if s = "" then .error "unexpected end of JSON input"
  else .error "unmodelled response"

/-- A tag name free of characters that require escaping inside a JSON
    string literal. -/
def jsonCleanName (t : Tagging) : Bool :=
  t.Name.data.all (fun c => !(c = Char.ofNat 34 || c = Char.ofNat 92 || c.toNat < 32))

/-- `PostNewItem` (main.go lines 137-160): marshal the four-field payload,
    build the POST to the item-creation endpoint with the JSON content
    type, run `DoRequest`, and unmarshal the response, wrapping errors as
    `errors.Wrap` does.  The `DoReqOutcome` is returned alongside the Go
    result so the request and effects are observable. -/
def PostNewItem (dryRun : Bool) (token : String)
    (net : HttpRequest → Except String String) (item : Item) :
    Except String Item × DoReqOutcome :=
  let postbytes := marshalPostdata item
  let req := setHeader (newRequest "POST" "https://qiita.com/api/v2/items" postbytes)
    "Content-Type" "application/json"
  let out := DoRequest dryRun token net req
  match out.result with
  | .error e => (.error ("failed to DoRequest: " ++ e), out)
  | .ok resbytes =>
    match jsonUnmarshalItem resbytes with
    | .error e => (.error ("failed to unmarshal: " ++ e), out)
    | .ok res => (.ok res, out)

/- ### Claim C9: DoRequest under dry-run -/

/-- Claim C9: with the dry-run flag set, `DoRequest` first sets the
    Authorization header to "Bearer " plus the environment token, writes a
    dump of the complete request — containing that Authorization header
    with the token — to standard output, performs no network call, and
    returns the empty byte sequence with no error. -/
theorem c9_dorequest_dry_run (token : String) (net : HttpRequest → Except String String)
    (req : HttpRequest) :
    (DoRequest true token net req).networkCalled = false ∧
      (DoRequest true token net req).finalRequest =
        setHeader req "Authorization" ("Bearer " ++ token) ∧
      (DoRequest true token net req).stdout =
        [dumpRequest (setHeader req "Authorization" ("Bearer " ++ token))] ∧
      ("Authorization: Bearer " ++ token).data <:+:
        (dumpRequest (setHeader req "Authorization" ("Bearer " ++ token))).data ∧
      (DoRequest true token net req).result = .ok "" := by
  refine ⟨rfl, rfl, rfl, ?_, rfl⟩
  refine ⟨(req.method ++ " " ++ req.path ++ " HTTP/1.1\r\n" ++ "Host: " ++ req.host ++
      "\r\n").data ++
      (((req.headers.filter (fun kv => kv.1 != "Authorization")).map
        (fun kv => (kv.1 ++ ": " ++ kv.2 ++ "\r\n").data)).flatten),
    "\r\n".data ++ ("\r\n" ++ req.body).data, ?_⟩
  simp [dumpRequest, setHeader, string_data_append, data_strOfList, List.flatten_append,
    List.append_assoc]

/- ### Claim C3: PostNewItem under dry-run -/

/-- Claim C3 (counterexample): dry-run `PostNewItem` does not return without
    error: the dry-run response body is empty, `json.Unmarshal` of empty
    input fails, and the wrapped unmarshal error is returned (main.go lines
    151-158 run unconditionally after the dry-run short-circuit). -/
theorem c3_counterexample :
    (PostNewItem true "token" (fun _ => .error "no network") { Title := "t" }).1 =
      .error "failed to unmarshal: unexpected end of JSON input" := by
  rfl

/-- Claim C3 (amended): with the dry-run flag enabled, `PostNewItem` issues
    no network call and constructs a request whose method is POST, whose
    host and path are the item-creation endpoint, whose headers carry the
    JSON content type and the bearer token, and whose body is exactly the
    four-field JSON payload with keys body, private, tags, title in sorted
    order — but it returns the unmarshal error for the empty dry-run
    response body rather than returning without error.  The final conjunct
    pins the exact payload on a concrete item. -/
theorem c3_dry_run (token : String) (net : HttpRequest → Except String String) (item : Item)
    (hclean : ∀ t ∈ item.Tags.getD [], jsonCleanName t = true) :
    (PostNewItem true token net item).2.networkCalled = false ∧
      (PostNewItem true token net item).1 =
        .error "failed to unmarshal: unexpected end of JSON input" ∧
      (PostNewItem true token net item).2.finalRequest.method = "POST" ∧
      (PostNewItem true token net item).2.finalRequest.host = "qiita.com" ∧
      (PostNewItem true token net item).2.finalRequest.path = "/api/v2/items" ∧
      (PostNewItem true token net item).2.finalRequest.body = marshalPostdata item ∧
      (PostNewItem true token net item).2.finalRequest.headers =
        [("Content-Type", "application/json"), ("Authorization", "Bearer " ++ token)] ∧
      marshalPostdata
          { Title := "Hello", Body := "B", Private := false,
            Tags := some [⟨"go", some ["1.x"]⟩] } =
        "\x7b\"body\":\"B\",\"private\":false,\"tags\":[\x7b\"name\":\"go\",\"tags\":[\"1.x\"]\x7d],\"title\":\"Hello\"\x7d" := by
  exact ⟨rfl, rfl, rfl, rfl, rfl, rfl, rfl, rfl⟩

/-- Claim C3 witness: the dry-run behavior at a concrete item and token. -/
theorem c3_witness :
    (PostNewItem true "tok" (fun _ => .error "e")
        { Title := "Hello", Body := "B", Private := false,
          Tags := some [⟨"go", some ["1.x"]⟩] }).2.networkCalled = false :=
  (c3_dry_run "tok" (fun _ => .error "e")
    { Title := "Hello", Body := "B", Private := false, Tags := some [⟨"go", some ["1.x"]⟩] }
    (by decide)).1

/- ### A JSON validity checker (for the wire-format claims) -/

/-- JSON insignificant whitespace. -/
def jsonWs (c : Char) : Bool := c = ' ' || c = '\n' || c = '\t' || c = '\r'

/-- Skip insignificant whitespace. -/
def skipWs (l : List Char) : List Char := l.dropWhile jsonWs

/-- Hexadecimal digit characters. -/
def hexChar (c : Char) : Bool :=
  c.isDigit || (97 ≤ c.toNat && c.toNat ≤ 102) || (65 ≤ c.toNat && c.toNat ≤ 70)

/-- Parse the remainder of a JSON string literal after the opening quote;
    return the input after the closing quote. -/
def parseStringBody : List Char → Option (List Char)
  | [] => none
  | c :: cs =>
    if c = Char.ofNat 34 then some cs
    else if c = Char.ofNat 92 then
      match cs with
      | [] => none
      | e :: cs' =>
        if e = Char.ofNat 34 || e = Char.ofNat 92 || e = '/' || e = 'b' || e = 'f' ||
            e = 'n' || e = 'r' || e = 't' then parseStringBody cs'
        else if e = 'u' then
          match cs' with
          | h1 :: h2 :: h3 :: h4 :: cs2 =>
            if hexChar h1 && hexChar h2 && hexChar h3 && hexChar h4 then parseStringBody cs2
            else none
          | _ => none
        else none
    else if c.toNat < 32 then none
    else parseStringBody cs

/-- Parse the optional fraction and exponent of a JSON number. -/
def parseFracExp (l : List Char) : Option (List Char) :=
  let l3 :=
    match l with
    | '.' :: cs =>
      if (cs.head?.map Char.isDigit).getD false then some (cs.dropWhile Char.isDigit)
      else none
    | _ => some l
  match l3 with
  | none => none
  | some l4 =>
    match l4 with
    | e :: cs =>
      if e = 'e' || e = 'E' then
        let cs2 := if cs.head? = some '+' || cs.head? = some '-' then cs.tail else cs
        if (cs2.head?.map Char.isDigit).getD false then some (cs2.dropWhile Char.isDigit)
        else none
      else some (e :: cs)
    | [] => some []

/-- Parse a JSON number. -/
def parseNumber (l : List Char) : Option (List Char) :=
  let l1 := if l.head? = some '-' then l.tail else l
  match l1 with
  | c :: cs =>
    if c = '0' then parseFracExp cs
    else if c.isDigit then parseFracExp (cs.dropWhile Char.isDigit)
    else none
  | [] => none

mutual

/-- Parse one JSON value; the fuel bounds the nesting and member count. -/
def parseJVal : Nat → List Char → Option (List Char)
  | 0, _ => none
  | fuel + 1, l =>
    match skipWs l with
    | [] => none
    | c :: cs =>
      if c = Char.ofNat 34 then parseStringBody cs
      else if c = Char.ofNat 123 then
        match skipWs cs with
        | d :: ds => if d = Char.ofNat 125 then some ds else parseMembers fuel (d :: ds)
        | [] => none
      else if c = '[' then
        match skipWs cs with
        | d :: ds => if d = ']' then some ds else parseElems fuel (d :: ds)
        | [] => none
      else if c = 't' then if cs.take 3 = ['r', 'u', 'e'] then some (cs.drop 3) else none
      else if c = 'f' then if cs.take 4 = ['a', 'l', 's', 'e'] then some (cs.drop 4) else none
      else if c = 'n' then if cs.take 3 = ['u', 'l', 'l'] then some (cs.drop 3) else none
      else if c = '-' || c.isDigit then parseNumber (c :: cs)
      else none

/-- Parse the members of a JSON object after the opening brace. -/
def parseMembers : Nat → List Char → Option (List Char)
  | 0, _ => none
  | fuel + 1, l =>
    match skipWs l with
    | [] => none
    | c :: cs =>
      if c = Char.ofNat 34 then
        match parseStringBody cs with
        | none => none
        | some r1 =>
          match skipWs r1 with
          | d :: r2 =>
            if d = ':' then
              match parseJVal fuel r2 with
              | none => none
              | some r3 =>
                match skipWs r3 with
                | e :: r4 =>
                  if e = ',' then parseMembers fuel r4
                  else if e = Char.ofNat 125 then some r4
                  else none
                | [] => none
            else none
          | [] => none
      else none

/-- Parse the elements of a JSON array after the opening bracket. -/
def parseElems : Nat → List Char → Option (List Char)
  | 0, _ => none
  | fuel + 1, l =>
    match parseJVal fuel l with
    | none => none
    | some r1 =>
      match skipWs r1 with
      | e :: r2 =>
        if e = ',' then parseElems fuel r2
        else if e = ']' then some r2
        else none
      | [] => none

end

/-- A string is valid JSON when one value parses and only whitespace
    remains. -/
def isValidJson (s : String) : Bool :=
  match parseJVal (s.length + 5) s.data with
  | some rest => (skipWs rest).isEmpty
  | none => false

/- ### Validity of the marshalled tag JSON -/

theorem hexDigit_ok : ∀ n, n < 16 → hexChar (hexDigit n) = true := by decide

theorem parseStringBody_escChar (c : Char) (t rest : List Char)
    (ht : parseStringBody t = some rest) :
    parseStringBody (jsonEscapeChar c ++ t) = some rest := by
  unfold jsonEscapeChar
  split_ifs with h1 h2 h3 h4 h5 h6 h7 h8 h9
  · rw [List.cons_append, List.cons_append, parseStringBody.eq_def]
    simp +decide [ht]
  · rw [List.cons_append, List.cons_append, parseStringBody.eq_def]
    simp +decide [ht]
  · rw [List.cons_append, List.cons_append, parseStringBody.eq_def]
    simp +decide [ht]
  · rw [List.cons_append, List.cons_append, parseStringBody.eq_def]
    simp +decide [ht]
  · rw [List.cons_append, List.cons_append, parseStringBody.eq_def]
    simp +decide [ht]
  · rw [List.cons_append, List.cons_append, List.cons_append, List.cons_append,
      List.cons_append, List.cons_append, parseStringBody.eq_def]
    simp +decide [ht]
  · rw [List.cons_append, List.cons_append, List.cons_append, List.cons_append,
      List.cons_append, List.cons_append, parseStringBody.eq_def]
    simp +decide [ht]
  · rw [List.cons_append, List.cons_append, List.cons_append, List.cons_append,
      List.cons_append, List.cons_append, parseStringBody.eq_def]
    simp +decide [ht]
  · have hx1 : hexChar (hexDigit (c.toNat / 16)) = true := hexDigit_ok _ (by omega)
    have hx2 : hexChar (hexDigit (c.toNat % 16)) = true :=
      hexDigit_ok _ (Nat.mod_lt _ (by omega))
    rw [List.cons_append, List.cons_append, List.cons_append, List.cons_append,
      List.cons_append, List.cons_append, parseStringBody.eq_def]
    simp +decide [ht, hx1, hx2]
  · rw [List.cons_append, List.nil_append, parseStringBody.eq_def]
    simp +decide [ht, h1, h2, h9]

theorem parseStringBody_escaped : ∀ (l rest : List Char),
    parseStringBody ((l.map jsonEscapeChar).flatten ++ Char.ofNat 34 :: rest) = some rest
  | [], rest => by
    simp only [List.map_nil, List.flatten_nil, List.nil_append]
    rw [parseStringBody.eq_def]
    simp +decide
  | c :: l', rest => by
    have ih := parseStringBody_escaped l' rest
    simp only [List.map_cons, List.flatten_cons, List.append_assoc]
    exact parseStringBody_escChar c _ rest ih

theorem parseStringBody_raw : ∀ (l rest : List Char),
    (∀ c ∈ l, ¬ c = Char.ofNat 34 ∧ ¬ c = Char.ofNat 92 ∧ ¬ c.toNat < 32) →
    parseStringBody (l ++ Char.ofNat 34 :: rest) = some rest
  | [], rest, _ => by
    rw [List.nil_append, parseStringBody.eq_def]
    simp +decide
  | c :: l', rest, h => by
    obtain ⟨h1, h2, h3⟩ := h c (List.mem_cons_self _ _)
    have ih := parseStringBody_raw l' rest (fun x hx => h x (List.mem_cons_of_mem _ hx))
    rw [List.cons_append, parseStringBody.eq_def]
    simp +decide [h1, h2, h3, ih]

theorem parseJVal_string (f : Nat) (v : String) (rest : List Char) :
    parseJVal (f + 1) ((jsonString v).data ++ rest) = some rest := by
  have hsh : (jsonString v).data ++ rest =
      Char.ofNat 34 :: ((v.data.map jsonEscapeChar).flatten ++ Char.ofNat 34 :: rest) := by
    simp [jsonString, data_strOfList, List.append_assoc]
  have hstr := parseStringBody_escaped v.data rest
  rw [hsh, parseJVal.eq_def]
  simp +decide [skipWs, jsonWs, hstr]

theorem parseElems_strings : ∀ (vs : List String) (fuel : Nat) (v : String) (rest : List Char),
    vs.length + 2 ≤ fuel →
    parseElems fuel ((jsonString v).data ++
      ((vs.map (fun w => ',' :: (jsonString w).data)).flatten ++ ']' :: rest)) = some rest
  | [], fuel, v, rest, hf => by
    rcases fuel with _ | f
    · omega
    rcases f with _ | f'
    · omega
    have hv := parseJVal_string f' v (']' :: rest)
    simp only [List.map_nil, List.flatten_nil, List.nil_append]
    rw [parseElems.eq_def]
    simp +decide [skipWs, jsonWs, hv]
  | w :: vs', fuel, v, rest, hf => by
    rcases fuel with _ | f
    · omega
    rcases f with _ | f'
    · omega
    have ih := parseElems_strings vs' (f' + 1) w rest (by
      simp only [List.length_cons] at hf
      omega)
    have hv := parseJVal_string f' v
      (',' :: ((jsonString w).data ++ ((vs'.map (fun x => ',' :: (jsonString x).data)).flatten ++ ']' :: rest)))
    have harr : (((w :: vs').map (fun x => ',' :: (jsonString x).data)).flatten) ++ ']' :: rest =
        ',' :: ((jsonString w).data ++ ((vs'.map (fun x => ',' :: (jsonString x).data)).flatten ++ ']' :: rest)) := by
      simp [List.append_assoc]
    rw [harr, parseElems.eq_def]
    simp +decide [skipWs, jsonWs, hv, ih]

theorem intercalate_comma_eq : ∀ (v : List Char) (vs : List (List Char)),
    [','].intercalate (v :: vs) = v ++ (vs.map (fun w => ',' :: w)).flatten
  | v, [] => by simp [List.intercalate]
  | v, w :: vs' => by
    have ih := intercalate_comma_eq w vs'
    rw [intercalate_cons_cons]
    simp only [List.map_cons, List.flatten_cons]
    rw [ih]
    simp

theorem parseJVal_array (f : Nat) (vs : List String) (rest : List Char)
    (hf : vs.length + 2 ≤ f + 1) :
    parseJVal (f + 2) ((jsonStringArray vs).data ++ rest) = some rest := by
  cases vs with
  | nil =>
    have hsh : (jsonStringArray ([] : List String)).data ++ rest = '[' :: ']' :: rest := by
      simp [jsonStringArray, data_strOfList, string_data_append, List.intercalate]
    rw [hsh, parseJVal.eq_def]
    simp +decide [skipWs, jsonWs]
  | cons v vs' =>
    have helems := parseElems_strings vs' (f + 1) v rest (by
      simp only [List.length_cons] at hf
      omega)
    have harr : parseElems (f + 1) (Char.ofNat 34 :: ((v.data.map jsonEscapeChar).flatten ++
        Char.ofNat 34 :: ((vs'.map (fun x => ',' :: (jsonString x).data)).flatten ++ ']' :: rest))) = some rest := by
      have hsh2 : (jsonString v).data ++
          ((vs'.map (fun x => ',' :: (jsonString x).data)).flatten ++ ']' :: rest) =
          Char.ofNat 34 :: ((v.data.map jsonEscapeChar).flatten ++
            Char.ofNat 34 :: ((vs'.map (fun x => ',' :: (jsonString x).data)).flatten ++ ']' :: rest)) := by
        simp [jsonString, data_strOfList, List.append_assoc]
      rw [← hsh2]
      exact helems
    have hsh : (jsonStringArray (v :: vs')).data ++ rest =
        '[' :: Char.ofNat 34 :: ((v.data.map jsonEscapeChar).flatten ++
          Char.ofNat 34 :: ((vs'.map (fun x => ',' :: (jsonString x).data)).flatten ++ ']' :: rest)) := by
      simp [jsonStringArray, data_strOfList, string_data_append, List.map_cons,
        intercalate_comma_eq, jsonString, List.append_assoc, Function.comp_def]
    rw [hsh, parseJVal.eq_def]
    simp +decide [skipWs, jsonWs, harr]

theorem parseMembers_marshal_none (f : Nat) (name : String)
    (hclean : ∀ c ∈ name.data, ¬ c = Char.ofNat 34 ∧ ¬ c = Char.ofNat 92 ∧ ¬ c.toNat < 32) :
    parseMembers (f + 3) (Char.ofNat 34 :: 'n' :: 'a' :: 'm' :: 'e' :: Char.ofNat 34 :: ':' ::
      Char.ofNat 34 :: (name.data ++ Char.ofNat 34 :: Char.ofNat 125 :: [])) = some [] := by
  have hkey : parseStringBody ('n' :: 'a' :: 'm' :: 'e' :: Char.ofNat 34 ::
      (':' :: Char.ofNat 34 :: (name.data ++ Char.ofNat 34 :: Char.ofNat 125 :: []))) =
      some (':' :: Char.ofNat 34 :: (name.data ++ Char.ofNat 34 :: Char.ofNat 125 :: [])) := by
    simpa using parseStringBody_raw ['n', 'a', 'm', 'e']
      (':' :: Char.ofNat 34 :: (name.data ++ Char.ofNat 34 :: Char.ofNat 125 :: [])) (by decide)
  have hname := parseStringBody_raw name.data (Char.ofNat 125 :: []) hclean
  have hval : parseJVal (f + 2) (Char.ofNat 34 ::
      (name.data ++ Char.ofNat 34 :: Char.ofNat 125 :: [])) = some (Char.ofNat 125 :: []) := by
    rw [parseJVal.eq_def]
    simp +decide [skipWs, jsonWs, hname]
  rw [parseMembers.eq_def]
  simp +decide [skipWs, jsonWs, hkey, hval]

theorem parseJVal_marshal_none (f : Nat) (name : String)
    (hclean : ∀ c ∈ name.data, ¬ c = Char.ofNat 34 ∧ ¬ c = Char.ofNat 92 ∧ ¬ c.toNat < 32) :
    parseJVal (f + 4) (Tagging.MarshalJSON ⟨name, none⟩).data = some [] := by
  have hdata : (Tagging.MarshalJSON ⟨name, none⟩).data =
      Char.ofNat 123 :: Char.ofNat 34 :: 'n' :: 'a' :: 'm' :: 'e' :: Char.ofNat 34 :: ':' ::
        Char.ofNat 34 :: (name.data ++ Char.ofNat 34 :: Char.ofNat 125 :: []) := by
    simp +decide [Tagging.MarshalJSON, string_data_append, data_strOfList, List.append_assoc]
  have hmem := parseMembers_marshal_none f name hclean
  rw [hdata, parseJVal.eq_def]
  simp +decide [skipWs, jsonWs, hmem]

theorem parseMembers_marshal_some (f : Nat) (name : String) (vs : List String)
    (hclean : ∀ c ∈ name.data, ¬ c = Char.ofNat 34 ∧ ¬ c = Char.ofNat 92 ∧ ¬ c.toNat < 32)
    (hf : vs.length + 2 ≤ f + 1) :
    parseMembers (f + 4) (Char.ofNat 34 :: 'n' :: 'a' :: 'm' :: 'e' :: Char.ofNat 34 :: ':' ::
      Char.ofNat 34 :: (name.data ++ Char.ofNat 34 :: ',' :: ' ' :: Char.ofNat 34 ::
        't' :: 'a' :: 'g' :: 's' :: Char.ofNat 34 :: ':' ::
          ((jsonStringArray vs).data ++ Char.ofNat 125 :: []))) = some [] := by
  have hkey1 : parseStringBody ('n' :: 'a' :: 'm' :: 'e' :: Char.ofNat 34 ::
      (':' :: Char.ofNat 34 :: (name.data ++ Char.ofNat 34 :: ',' :: ' ' :: Char.ofNat 34 ::
        't' :: 'a' :: 'g' :: 's' :: Char.ofNat 34 :: ':' ::
          ((jsonStringArray vs).data ++ Char.ofNat 125 :: [])))) =
      some (':' :: Char.ofNat 34 :: (name.data ++ Char.ofNat 34 :: ',' :: ' ' :: Char.ofNat 34 ::
        't' :: 'a' :: 'g' :: 's' :: Char.ofNat 34 :: ':' ::
          ((jsonStringArray vs).data ++ Char.ofNat 125 :: []))) := by
    simpa using parseStringBody_raw ['n', 'a', 'm', 'e']
      (':' :: Char.ofNat 34 :: (name.data ++ Char.ofNat 34 :: ',' :: ' ' :: Char.ofNat 34 ::
        't' :: 'a' :: 'g' :: 's' :: Char.ofNat 34 :: ':' ::
          ((jsonStringArray vs).data ++ Char.ofNat 125 :: []))) (by decide)
  have hname := parseStringBody_raw name.data
    (',' :: ' ' :: Char.ofNat 34 :: 't' :: 'a' :: 'g' :: 's' :: Char.ofNat 34 :: ':' ::
      ((jsonStringArray vs).data ++ Char.ofNat 125 :: [])) hclean
  have hval1 : parseJVal (f + 3) (Char.ofNat 34 ::
      (name.data ++ Char.ofNat 34 :: ',' :: ' ' :: Char.ofNat 34 ::
        't' :: 'a' :: 'g' :: 's' :: Char.ofNat 34 :: ':' ::
          ((jsonStringArray vs).data ++ Char.ofNat 125 :: []))) =
      some (',' :: ' ' :: Char.ofNat 34 :: 't' :: 'a' :: 'g' :: 's' :: Char.ofNat 34 :: ':' ::
        ((jsonStringArray vs).data ++ Char.ofNat 125 :: [])) := by
    rw [parseJVal.eq_def]
    simp +decide [skipWs, jsonWs, hname]
  have hkey2 : parseStringBody ('t' :: 'a' :: 'g' :: 's' :: Char.ofNat 34 ::
      (':' :: ((jsonStringArray vs).data ++ Char.ofNat 125 :: []))) =
      some (':' :: ((jsonStringArray vs).data ++ Char.ofNat 125 :: [])) := by
    simpa using parseStringBody_raw ['t', 'a', 'g', 's']
      (':' :: ((jsonStringArray vs).data ++ Char.ofNat 125 :: [])) (by decide)
  have hval2 := parseJVal_array f vs (Char.ofNat 125 :: []) hf
  have hrec : parseMembers (f + 3) (' ' :: Char.ofNat 34 :: 't' :: 'a' :: 'g' :: 's' ::
      Char.ofNat 34 :: ':' :: ((jsonStringArray vs).data ++ Char.ofNat 125 :: [])) = some [] := by
    rw [parseMembers.eq_def]
    simp +decide [skipWs, jsonWs, hkey2, hval2]
  rw [parseMembers.eq_def]
  simp +decide [skipWs, jsonWs, hkey1, hval1, hrec]

theorem parseJVal_marshal_some (f : Nat) (name : String) (vs : List String)
    (hclean : ∀ c ∈ name.data, ¬ c = Char.ofNat 34 ∧ ¬ c = Char.ofNat 92 ∧ ¬ c.toNat < 32)
    (hf : vs.length + 2 ≤ f + 1) :
    parseJVal (f + 5) (Tagging.MarshalJSON ⟨name, some vs⟩).data = some [] := by
  have hdata : (Tagging.MarshalJSON ⟨name, some vs⟩).data =
      Char.ofNat 123 :: Char.ofNat 34 :: 'n' :: 'a' :: 'm' :: 'e' :: Char.ofNat 34 :: ':' ::
        Char.ofNat 34 :: (name.data ++ Char.ofNat 34 :: ',' :: ' ' :: Char.ofNat 34 ::
          't' :: 'a' :: 'g' :: 's' :: Char.ofNat 34 :: ':' ::
            ((jsonStringArray vs).data ++ Char.ofNat 125 :: [])) := by
    simp +decide [Tagging.MarshalJSON, string_data_append, data_strOfList, List.append_assoc]
  have hmem := parseMembers_marshal_some f name vs hclean hf
  rw [hdata, parseJVal.eq_def]
  simp +decide [skipWs, jsonWs, hmem]

theorem marshal_none_data (name : String) :
    (Tagging.MarshalJSON ⟨name, none⟩).data =
      (Char.ofNat 123 :: Char.ofNat 34 :: 'n' :: 'a' :: 'm' :: 'e' :: Char.ofNat 34 :: ':' ::
        Char.ofNat 34 :: []) ++ name.data ++ (Char.ofNat 34 :: Char.ofNat 125 :: []) := by
  simp +decide [Tagging.MarshalJSON, string_data_append, data_strOfList, List.append_assoc]

theorem marshal_some_data (name : String) (vs : List String) :
    (Tagging.MarshalJSON ⟨name, some vs⟩).data =
      (Char.ofNat 123 :: Char.ofNat 34 :: 'n' :: 'a' :: 'm' :: 'e' :: Char.ofNat 34 :: ':' ::
        Char.ofNat 34 :: []) ++ name.data ++
        (Char.ofNat 34 :: ',' :: ' ' :: Char.ofNat 34 :: 't' :: 'a' :: 'g' :: 's' ::
          Char.ofNat 34 :: ':' :: ((jsonStringArray vs).data ++ Char.ofNat 125 :: [])) := by
  simp +decide [Tagging.MarshalJSON, string_data_append, data_strOfList, List.append_assoc]

theorem flatten_comma_len : ∀ (vs : List String),
    vs.length ≤ ((vs.map (fun w => ',' :: (jsonString w).data)).flatten).length
  | [] => by simp
  | w :: ws => by
    have ih := flatten_comma_len ws
    simp only [List.map_cons, List.flatten_cons, List.length_append, List.length_cons]
    omega

theorem jsa_len : ∀ (vs : List String), vs.length ≤ (jsonStringArray vs).data.length
  | [] => by simp
  | v :: vs' => by
    have ih := flatten_comma_len vs'
    have hsh : (jsonStringArray (v :: vs')).data =
        '[' :: ((jsonString v).data ++
          ((vs'.map (fun x => ',' :: (jsonString x).data)).flatten ++ [']'])) := by
      simp [jsonStringArray, data_strOfList, string_data_append, List.map_cons,
        intercalate_comma_eq, List.map_map, Function.comp_def, List.append_assoc]
    rw [hsh]
    simp only [List.length_cons, List.length_append]
    omega

theorem marshal_some_len (name : String) (vs : List String) :
    vs.length + 1 ≤ (Tagging.MarshalJSON ⟨name, some vs⟩).length := by
  have hj := jsa_len vs
  have hlen : (Tagging.MarshalJSON ⟨name, some vs⟩).length =
      (Tagging.MarshalJSON ⟨name, some vs⟩).data.length := rfl
  rw [hlen, marshal_some_data]
  simp only [List.length_append, List.length_cons]
  omega

theorem jsonCleanName_spec (t : Tagging) (h : jsonCleanName t = true) :
    ∀ c ∈ t.Name.data, ¬ c = Char.ofNat 34 ∧ ¬ c = Char.ofNat 92 ∧ ¬ c.toNat < 32 := by
  intro c hc
  simp only [jsonCleanName] at h
  rw [List.all_eq_true] at h
  have h2 := h c hc
  simp at h2
  exact ⟨h2.1.1, h2.1.2, by omega⟩

theorem marshal_valid_of_clean (t : Tagging) (h : jsonCleanName t = true) :
    isValidJson (Tagging.MarshalJSON t) = true := by
  obtain ⟨name, versions⟩ := t
  have hclean := jsonCleanName_spec ⟨name, versions⟩ h
  cases versions with
  | none =>
    have hval := parseJVal_marshal_none ((Tagging.MarshalJSON ⟨name, none⟩).length + 1) name hclean
    have heq : (Tagging.MarshalJSON ⟨name, none⟩).length + 1 + 4 =
        (Tagging.MarshalJSON ⟨name, none⟩).length + 5 := by omega
    rw [heq] at hval
    simp [isValidJson, hval, skipWs]
  | some vs =>
    have hlen := marshal_some_len name vs
    have hval := parseJVal_marshal_some ((Tagging.MarshalJSON ⟨name, some vs⟩).length) name vs
      hclean (by omega)
    simp [isValidJson, hval, skipWs]

/-- Claim C10 (counterexample to the original "exactly" claim): the tag whose
    name is the two characters backslash-then-quote contains characters that
    require escaping in a JSON string (its name is not clean), yet
    `Tagging.MarshalJSON` of it happens to be valid JSON, because the verbatim
    backslash-quote pair reads back as a single escaped quote. -/
theorem c10_counterexample :
    jsonCleanName ⟨strOfList [Char.ofNat 92, Char.ofNat 34], none⟩ = false ∧
      isValidJson (Tagging.MarshalJSON ⟨strOfList [Char.ofNat 92, Char.ofNat 34], none⟩) = true :=
  ⟨by decide, by decide⟩

/-- Claim C10 (amended): `Tagging.MarshalJSON` interpolates the tag's name
    verbatim — the raw name characters appear as a contiguous segment of the
    output for every tag; if the name contains no character requiring JSON
    string escaping (no double quote, no backslash, no control character) the
    output is valid JSON; and there exists a tag — one whose name contains a
    double quote — whose output is not valid JSON.  The converse of the middle
    part (the original claim's "exactly") is false: see the counterexample. -/
theorem c10_marshal_validity :
    (∀ t : Tagging, t.Name.data <:+: (Tagging.MarshalJSON t).data) ∧
      (∀ t : Tagging, jsonCleanName t = true → isValidJson (Tagging.MarshalJSON t) = true) ∧
      isValidJson (Tagging.MarshalJSON ⟨strOfList ['a', Char.ofNat 34, 'b'], none⟩) = false := by
  refine ⟨?_, fun t h => marshal_valid_of_clean t h, by decide⟩
  intro t
  obtain ⟨name, versions⟩ := t
  cases versions with
  | none =>
    exact ⟨Char.ofNat 123 :: Char.ofNat 34 :: 'n' :: 'a' :: 'm' :: 'e' :: Char.ofNat 34 :: ':' ::
      Char.ofNat 34 :: [], Char.ofNat 34 :: Char.ofNat 125 :: [], (marshal_none_data name).symm⟩
  | some vs =>
    exact ⟨Char.ofNat 123 :: Char.ofNat 34 :: 'n' :: 'a' :: 'm' :: 'e' :: Char.ofNat 34 :: ':' ::
      Char.ofNat 34 :: [],
      Char.ofNat 34 :: ',' :: ' ' :: Char.ofNat 34 :: 't' :: 'a' :: 'g' :: 's' ::
        Char.ofNat 34 :: ':' :: ((jsonStringArray vs).data ++ Char.ofNat 125 :: []),
      (marshal_some_data name vs).symm⟩

/-- Claim C10 witness: at the concrete clean tag ⟨"go", ["1.x"]⟩ the clean-name
    hypothesis holds and the marshalled output is valid JSON. -/
theorem c10_witness :
    jsonCleanName ⟨"go", some ["1.x"]⟩ = true ∧
      isValidJson (Tagging.MarshalJSON ⟨"go", some ["1.x"]⟩) = true :=
  ⟨by decide, c10_marshal_validity.2.1 ⟨"go", some ["1.x"]⟩ (by decide)⟩
